import Mathlib

/-!
The btpd command line client `btcli`.

A shallow embedding of `src/btcli.c` and proofs about it.

Conventions of the embedding
* A C string is the list of its bytes (`List Nat`); the end of the list is the
  terminating NUL, and reading at or past the end yields `0`.
* `unsigned` / `uint32_t` are naturals reduced modulo `2 ^ 32`, `unsigned long`
  modulo `2 ^ 64`, `long` / `long long` are integers in `[-2 ^ 63, 2 ^ 63)`.
* A function that leaves through `exit` (`usage_rate`, `diemsg`) returns `none`.
* `double` values are the rationals that are representable in binary64; every
  arithmetic operation rounds its exact result to the nearest representable
  value, ties to even (`fl`).
-/

namespace Btcli

/-! ## C library: `strcmp` -/

/-- The C library `strcmp`: compares two strings byte by byte as unsigned
characters and returns the difference at the first position where they differ;
the comparison stops at the terminating NUL. -/
def strcmp : List Nat → List Nat → Int
  | [], [] => 0
  | [], b :: _ => 0 - (b : Int)
  | a :: _, [] => (a : Int) - 0
  | a :: as, b :: bs =>
    if a ≠ b then (a : Int) - (b : Int)
    else if a = 0 then 0
    else strcmp as bs

/-! ## C library: `strtoul` and `strtol` -/

/-- The C locale `isspace`: space, `\t`, `\n`, `\v`, `\f`, `\r`. -/
def isspace (c : Nat) : Bool := c == 32 || (9 ≤ c && c ≤ 13)

/-- The C locale `isdigit`: `'0'` (48) to `'9'` (57). -/
def isdigit (c : Nat) : Bool := 48 ≤ c && c ≤ 57

/-- The number a run of decimal digit characters denotes, accumulated from the
left as the library does. -/
def digits_value (ds : List Nat) : Nat :=
  ds.foldl (fun acc c => 10 * acc + (c - 48)) 0

/-- The largest `unsigned long` (LP64). -/
def ULONG_MAX : Nat := 2 ^ 64 - 1

/-- The largest `long` (LP64). -/
def LONG_MAX : Int := 2 ^ 63 - 1

/-- The smallest `long` (LP64). -/
def LONG_MIN : Int := -(2 ^ 63)

/-- The subject sequence of a base 10 `strtol` / `strtoul` conversion. -/
structure subject where
  negative : Bool
  magnitude : Nat
  consumed : Nat
  deriving DecidableEq, Repr

/-- The scan shared by `strtol` and `strtoul` in base 10: leading white space is
skipped, one optional sign (`'-'` is 45, `'+'` is 43) is taken, then the longest
run of digits. Without a digit there is no conversion (`none`); otherwise the
result tells the sign, the magnitude and how many characters were consumed. -/
def scan_number (s : List Nat) : Option subject :=
  let ws := s.takeWhile isspace
  let s1 := s.dropWhile isspace
  let sgn := if s1.head? = some 45 ∨ s1.head? = some 43 then 1 else 0
  let ds := (s1.drop sgn).takeWhile isdigit
  if ds = [] then none
  else some { negative := decide (s1.head? = some 45),
              magnitude := digits_value ds,
              consumed := ws.length + sgn + ds.length }

/-- The C library `strtoul(s, &end, 10)`: the converted value and the offset of
`end` in `s`. Without a conversion the value is `0` and `end` is `s`; a
magnitude above `ULONG_MAX` is clamped to `ULONG_MAX`; a leading `'-'` negates
the value in the unsigned type. -/
def strtoul (s : List Nat) : Nat × Nat :=
  match scan_number s with
  | none => (0, 0)
  | some r =>
    (if r.magnitude > ULONG_MAX then ULONG_MAX
     else if r.negative then (2 ^ 64 - r.magnitude) % 2 ^ 64
     else r.magnitude, r.consumed)

/-- The C library `strtol(s, &end, 10)`: the converted value and the offset of
`end` in `s`. Without a conversion the value is `0` and `end` is `s`; values out
of range are clamped to `LONG_MAX` or `LONG_MIN`. -/
def strtol (s : List Nat) : Int × Nat :=
  match scan_number s with
  | none => (0, 0)
  | some r =>
    (if r.negative then
       (if (r.magnitude : Int) > 2 ^ 63 then LONG_MIN else -(r.magnitude : Int))
     else
       (if (r.magnitude : Int) > LONG_MAX then LONG_MAX else (r.magnitude : Int)),
     r.consumed)

/-- The character at offset `i` of a C string: past the last byte it is the
terminating NUL. -/
def char_at (s : List Nat) (i : Nat) : Nat := s.getD i 0

/-! ## Torrent references -/

/-- Modelled from the spec: the `struct ipc_torrent` of `btpd_if.h`, which is not
among the sources (the TorrentRef of the specification). `by_hash` selects which
member of the union `u` is meaningful, `num` (an `unsigned`) or `hash` (20
bytes); the other member holds no usable value. -/
structure ipc_torrent where
  by_hash : Int
  num : Nat
  hash : List Nat
  deriving DecidableEq, Repr

/-- What a call of `torrent_spec` did: its return value, the `struct ipc_torrent`
it left behind, the paths it handed to the metainfo loader `mi_load` (in call
order), and the token it reported on the error stream, if any. -/
structure spec_result where
  ret : Int
  tp : ipc_torrent
  loads : List (List Nat)
  reported : Option (List Nat)
  deriving DecidableEq, Repr

/-- The function `torrent_spec(arg, tp)`. The metainfo collaborators are
parameters: `mi_load path` is the loaded document or `none` for `NULL`, and
`mi_info_hash` computes the info hash of a document. `u.num` is an `unsigned`,
so the `unsigned long` result of `strtoul` is truncated to 32 bits. -/
def torrent_spec (mi_load : List Nat → Option (List Nat))
    (mi_info_hash : List Nat → List Nat) (arg : List Nat) (tp : ipc_torrent) :
    spec_result :=
  let r := strtoul arg
  let tp1 := { tp with num := r.1 % 2 ^ 32 }
  if char_at arg r.2 = 0 then
    { ret := 1, tp := { tp1 with by_hash := 0 }, loads := [], reported := none }
  else
    match mi_load arg with
    | none => { ret := 0, tp := tp1, loads := [arg], reported := some arg }
    | some p =>
      { ret := 1, tp := { tp1 with by_hash := 1, hash := mi_info_hash p },
        loads := [arg], reported := none }

/-- The text of a string literal as C string bytes (ASCII). -/
def ascii (s : String) : List Nat := s.toList.map Char.toNat

/-! ## The rate section -/

/-- The function `parse_rate(rate)`; `none` is the exit through `usage_rate()`.
`out` is an `unsigned`: the `long` result of `strtol` is reduced modulo `2 ^ 32`
on assignment and every shift is done in 32 bits. The unit characters are
`g` 103, `G` 71, `m` 109, `M` 77, `k` 107, `K` 75, `b` 98, `B` 66. -/
def parse_rate (rate : List Nat) : Option Nat :=
  let r := strtol rate
  let out := (r.1 % 2 ^ 32).toNat
  if r.2 = 0 then none
  else if char_at rate r.2 ≠ 0 ∧ char_at rate (r.2 + 1) ≠ 0 then none
  else
    let c := char_at rate r.2
    if c = 103 ∨ c = 71 then some (out * 2 ^ 30 % 2 ^ 32)
    else if c = 109 ∨ c = 77 then some (out * 2 ^ 20 % 2 ^ 32)
    else if c = 0 ∨ c = 107 ∨ c = 75 then some (out * 2 ^ 10 % 2 ^ 32)
    else if c = 98 ∨ c = 66 then some out
    else none

/-- The number a list of decimal digits denotes, most significant digit first. -/
def decimal_value (ds : List Nat) : Nat := Nat.ofDigits 10 ds.reverse

/-- The number an optional sign `sg` and digits of value `v` denote: `-v` after
a `'-'` (45), else `v`. -/
def signed_value (sg : List Nat) (v : Nat) : Int :=
  if sg = [45] then -(v : Int) else (v : Int)

/-- The tokens `strtoul` consumes in their entirety, in the words of its
manual: optional white space, an optional sign, one or more decimal digits. -/
def whole_number_shape (tok : List Nat) : Prop :=
  ∃ ws sg ds, tok = ws ++ sg ++ ds ∧ (∀ c ∈ ws, isspace c = true) ∧
    (sg = [] ∨ sg = [43] ∨ sg = [45]) ∧ ds ≠ [] ∧ ∀ c ∈ ds, isdigit c = true

/-- The shift each unit suffix of a rate stands for, in the words of the
specification: `g`/`G` 30, `m`/`M` 20, `k`/`K` or no suffix 10, `b`/`B` 0. -/
def unit_shift (u : List Nat) : Option Nat :=
  if u = [103] ∨ u = [71] then some 30
  else if u = [109] ∨ u = [77] then some 20
  else if u = [] ∨ u = [107] ∨ u = [75] then some 10
  else if u = [98] ∨ u = [66] then some 0
  else none

/-- The rate strings that are a number (as `strtol` reads one: optional white
space, an optional sign, one or more digits) followed by at most one unit
character. -/
def rate_shape (s : List Nat) : Prop :=
  ∃ ws sg ds u, s = ws ++ sg ++ ds ++ u ∧ (∀ c ∈ ws, isspace c = true) ∧
    (sg = [] ∨ sg = [43] ∨ sg = [45]) ∧ ds ≠ [] ∧ (∀ c ∈ ds, isdigit c = true) ∧
    (unit_shift u).isSome = true

/-! ## The list section: items and sorted insertion -/

/-- The display record `struct item` (without the queue link `entry`, which is
the position in the list). -/
structure item where
  num : Nat
  peers : Nat
  name : List Nat
  dir : List Nat
  label : List Nat
  hash : List Nat
  st : Nat
  cgot : Int
  csize : Int
  totup : Int
  downloaded : Int
  uploaded : Int
  rate_up : Int
  rate_down : Int
  torrent_pieces : Nat
  pieces_have : Nat
  pieces_seen : Nat
  deriving DecidableEq, Repr

/-- The accumulator `struct items`; the tail queue `hd` is the list of its
elements from head to tail. -/
structure items where
  count : Int
  argv : List (List Nat)
  ntps : Int
  tps : List ipc_torrent
  hd : List item
  deriving DecidableEq, Repr

/-- The queue walk of `itm_insert`: `BTPDQ_FOREACH` stops at the first element
`p` with `strcmp(itm->name, p->name) < 0` and the item is linked in before it
(`BTPDQ_INSERT_BEFORE`); when the walk runs off the end the item is appended
(`BTPDQ_INSERT_TAIL`). -/
def insert_queue (itm : item) : List item → List item
  | [] => [itm]
  | p :: rest =>
    if strcmp itm.name p.name < 0 then itm :: p :: rest
    else p :: insert_queue itm rest

/-- The function `itm_insert(itms, itm)`. -/
def itm_insert (itms : items) (itm : item) : items :=
  { itms with hd := insert_queue itm itms.hd }

/-- The state of the accumulator after `itm_insert` was called on each item of
`arrivals` in turn. -/
def insert_all (itms : items) (arrivals : List item) : items :=
  arrivals.foldl itm_insert itms

/-- The order of the list: `a` may stand before `b` when `strcmp` does not put
`a`'s name after `b`'s. -/
def name_le (a b : item) : Bool := decide (strcmp a.name b.name ≤ 0)

/-- The class of items whose name compares equal (under `strcmp`) to `key`. -/
def same_name (key : List Nat) (a : item) : Bool := decide (strcmp a.name key = 0)

/-- The stable sort by name, as the specification words it: any stable sort over
the fully collected sequence, here the library merge sort. -/
def stable_sort_by_name (arrivals : List item) : List item :=
  arrivals.mergeSort name_le

/-! ## The batch query interface (`btpd_if.h`) -/

/-- Modelled from the spec: the success code `IPC_OK` of `enum ipc_err`
(`btpd_if.h`, not among the sources), taken as the first enumerator. No
statement below depends on the number. -/
def IPC_OK : Int := 0

/-- Modelled from the spec: the torrent states of `enum ipc_tstate` (`btpd_if.h`,
not among the sources), numbered in the order `tstate_char` lists them in. No
statement below depends on the numbers, only on their being distinct. -/
def IPC_TSTATE_INACTIVE : Int := 0

/-- See `IPC_TSTATE_INACTIVE`. -/
def IPC_TSTATE_START : Int := 1

/-- See `IPC_TSTATE_INACTIVE`. -/
def IPC_TSTATE_STOP : Int := 2

/-- See `IPC_TSTATE_INACTIVE`. -/
def IPC_TSTATE_LEECH : Int := 3

/-- See `IPC_TSTATE_INACTIVE`. -/
def IPC_TSTATE_SEED : Int := 4

/-- Modelled from the spec: the attribute keys of `enum ipc_tval` (`btpd_if.h`,
not among the sources) that `btcli.c` names; they index the result array `res`
of a callback. -/
inductive ipc_tval
  | IPC_TVAL_CGOT | IPC_TVAL_CSIZE | IPC_TVAL_DIR | IPC_TVAL_LABEL | IPC_TVAL_NAME
  | IPC_TVAL_NUM | IPC_TVAL_IHASH | IPC_TVAL_PCCOUNT | IPC_TVAL_PCGOT | IPC_TVAL_PCOUNT
  | IPC_TVAL_PCSEEN | IPC_TVAL_RATEDWN | IPC_TVAL_RATEUP | IPC_TVAL_SESSDWN
  | IPC_TVAL_SESSUP | IPC_TVAL_STATE | IPC_TVAL_TOTUP | IPC_TVAL_TRGOOD
  deriving DecidableEq, Repr

/-- Modelled from the spec: the tag of a result slot, `enum ipc_type`
(`btpd_if.h`, not among the sources): an error code, a number or a byte
string. -/
inductive ipc_type
  | IPC_TYPE_ERR | IPC_TYPE_NUM | IPC_TYPE_STR
  deriving DecidableEq, Repr

/-- Modelled from the spec: one result slot, `struct ipc_get_res` (`btpd_if.h`,
not among the sources): the tag `type` and the union `v`, read as the
`long long` `v.num` or as the byte string `v.str` (`p`, `l`). -/
structure ipc_get_res where
  type : ipc_type
  num : Int
  str : List Nat
  deriving DecidableEq, Repr

/-- One invocation of a query callback: the arguments `obji`, `objerr` and
`res` that `btpd_tget` / `btpd_tget_wc` pass to it. -/
structure callback where
  obji : Int
  objerr : Int
  res : ipc_tval → ipc_get_res

/-- The conversion of a `long long` to `enum ipc_tstate`, a 32 bit type, as it
happens when `v.num` of the state slot is passed to `tstate_char` or assigned
to `btstat.state`: the value modulo `2 ^ 32` (the enumeration has no negative
enumerator, so its type is `unsigned int`; were it `int`, the same numbers
would be the states). -/
def to_tstate (x : Int) : Int := x % 2 ^ 32

/-- The function `tstate_char`, on the value of its `enum ipc_tstate`
parameter (callers convert with `to_tstate`); `none` is the exit through
`diemsg("unrecognized torrent state.\n")`. The characters are `'I'` 73,
`'+'` 43, `'-'` 45, `'L'` 76, `'S'` 83. -/
def tstate_char (ts : Int) : Option Nat :=
  if ts = IPC_TSTATE_INACTIVE then some 73
  else if ts = IPC_TSTATE_START then some 43
  else if ts = IPC_TSTATE_STOP then some 45
  else if ts = IPC_TSTATE_LEECH then some 76
  else if ts = IPC_TSTATE_SEED then some 83
  else none

/-! ## The stat section -/

/-- Conversion to `unsigned` / `uint32_t`. -/
def to_u32 (x : Int) : Nat := (x % 2 ^ 32).toNat

/-- Addition in `unsigned` / `uint32_t`. -/
def add_u32 (a b : Nat) : Nat := (a + b) % 2 ^ 32

/-- Addition in `long long`, read as two's complement wrap-around (the C
standard leaves signed overflow undefined). -/
def add_i64 (a b : Int) : Int := (a + b + 2 ^ 63) % 2 ^ 64 - 2 ^ 63

/-- The record `struct btstat`. -/
structure btstat where
  num : Nat
  state : Int
  peers : Nat
  tr_good : Nat
  content_got : Int
  content_size : Int
  downloaded : Int
  uploaded : Int
  rate_up : Int
  rate_down : Int
  tot_up : Int
  pieces_seen : Nat
  torrent_pieces : Nat
  deriving DecidableEq, Repr

/-- A `struct btstat` after `bzero`. -/
def btstat_zero : btstat :=
  { num := 0, state := 0, peers := 0, tr_good := 0, content_got := 0, content_size := 0,
    downloaded := 0, uploaded := 0, rate_up := 0, rate_down := 0, tot_up := 0,
    pieces_seen := 0, torrent_pieces := 0 }

/-- The callback argument `struct cbarg`. -/
structure cbarg where
  individual : Int
  names : Int
  tot : btstat
  deriving DecidableEq, Repr

/-- What the stat command writes, one entry per `printf` group: the header
(with the leading `" NUM ST "` in individual mode), a torrent's name line, a
torrent's own line (`"%4u %c. "` and `print_stat`), the rule `"-------"`, the
line of the aggregate (`print_stat(&cba.tot)`, indented in individual mode) and
the message of `diemsg`. -/
inductive stat_event
  | header (individual : Bool)
  | name_line (name : List Nat)
  | torrent_line (num : Nat) (st : Nat) (stat : btstat)
  | rule
  | total_line (indent : Bool) (stat : btstat)
  | die_msg
  deriving DecidableEq, Repr

/-- The effect of a piece of the stat command: the callback argument it leaves,
what it printed, and whether it left the process through `diemsg`. -/
structure stat_step where
  cba : cbarg
  out : List stat_event
  exit : Bool
  deriving DecidableEq, Repr

/-- The function `stat_cb(obji, objerr, res, arg)`. -/
def stat_cb (_obji : Int) (objerr : Int) (res : ipc_tval → ipc_get_res) (cba : cbarg) :
    stat_step :=
  if objerr ≠ IPC_OK ∨ (res .IPC_TVAL_STATE).num = IPC_TSTATE_INACTIVE then
    { cba := cba, out := [], exit := false }
  else
    let st : btstat :=
      { btstat_zero with
        state := to_tstate (res .IPC_TVAL_STATE).num
        num := to_u32 (res .IPC_TVAL_NUM).num
        torrent_pieces := to_u32 (res .IPC_TVAL_PCCOUNT).num
        pieces_seen := to_u32 (res .IPC_TVAL_PCSEEN).num
        content_got := (res .IPC_TVAL_CGOT).num
        content_size := (res .IPC_TVAL_CSIZE).num
        downloaded := (res .IPC_TVAL_SESSDWN).num
        uploaded := (res .IPC_TVAL_SESSUP).num
        rate_down := (res .IPC_TVAL_RATEDWN).num
        rate_up := (res .IPC_TVAL_RATEUP).num
        peers := to_u32 (res .IPC_TVAL_PCOUNT).num
        tot_up := (res .IPC_TVAL_TOTUP).num
        tr_good := to_u32 (res .IPC_TVAL_TRGOOD).num }
    let tot : btstat :=
      { cba.tot with
        torrent_pieces := add_u32 cba.tot.torrent_pieces st.torrent_pieces
        pieces_seen := add_u32 cba.tot.pieces_seen st.pieces_seen
        content_got := add_i64 cba.tot.content_got st.content_got
        content_size := add_i64 cba.tot.content_size st.content_size
        downloaded := add_i64 cba.tot.downloaded st.downloaded
        uploaded := add_i64 cba.tot.uploaded st.uploaded
        rate_down := add_i64 cba.tot.rate_down st.rate_down
        rate_up := add_i64 cba.tot.rate_up st.rate_up
        peers := add_u32 cba.tot.peers st.peers
        tot_up := add_i64 cba.tot.tot_up st.tot_up
        tr_good := add_u32 cba.tot.tr_good st.tr_good }
    let cba1 : cbarg := { cba with tot := tot }
    if cba.individual ≠ 0 then
      let named : List stat_event :=
        if cba.names ≠ 0 then [stat_event.name_line (res .IPC_TVAL_NAME).str] else []
      match tstate_char st.state with
      | none => { cba := cba1, out := named ++ [stat_event.die_msg], exit := true }
      | some c =>
        { cba := cba1, out := named ++ [stat_event.torrent_line st.num c st], exit := false }
    else { cba := cba1, out := [], exit := false }

/-- The callbacks of one query, fired in order on the callback argument, as
`btpd_tget` and `btpd_tget_wc` do; a callback that leaves the process ends the
run. -/
def run_callbacks (cba : cbarg) : List callback → stat_step
  | [] => { cba := cba, out := [], exit := false }
  | cb :: rest =>
    let r := stat_cb cb.obji cb.objerr cb.res cba
    if r.exit then r
    else
      let r2 := run_callbacks r.cba rest
      { cba := r2.cba, out := r.out ++ r2.out, exit := r2.exit }

/-- The state `do_stat` keeps from one poll cycle to the next: its locals
`individual`, `names`, `header` and `cba`. -/
structure stat_state where
  individual : Int
  names : Int
  header : Int
  cba : cbarg
  deriving DecidableEq, Repr

/-- The entry of `do_stat`, up to the label `again`: `names` implies
`individual`, `header` starts at 1; `tot` is the not yet initialised `cba.tot`. -/
def do_stat_init (individual names : Int) (tot : btstat) : stat_state :=
  let individual1 := if names ≠ 0 then 1 else individual
  { individual := individual1, names := names, header := 1,
    cba := { individual := individual1, names := names, tot := tot } }

/-- What one poll cycle of `do_stat` did. -/
structure cycle_result where
  state : stat_state
  out : List stat_event
  exit : Bool
  deriving DecidableEq, Repr

/-- One poll cycle of `do_stat`, from the label `again` to the test of
`seconds`. The answer of the daemon to the query of this cycle is a parameter:
the callbacks the query fires, in order, and the error code it returns. -/
def stat_cycle (s : stat_state) (fired : List callback) (err : Int) : cycle_result :=
  let header1 := s.header - 1
  let header2 := if header1 = 0 then (if s.individual ≠ 0 then 1 else 20) else header1
  let out1 : List stat_event :=
    if header1 = 0 then [stat_event.header (decide (s.individual ≠ 0))] else []
  let cba1 : cbarg :=
    { s.cba with tot := { btstat_zero with state := IPC_TSTATE_INACTIVE } }
  let r := run_callbacks cba1 fired
  let s1 : stat_state := { s with header := header2, cba := r.cba }
  if r.exit then { state := s1, out := out1 ++ r.out, exit := true }
  else if err ≠ IPC_OK then
    { state := s1, out := out1 ++ r.out ++ [stat_event.die_msg], exit := true }
  else
    { state := s1,
      out := out1 ++ r.out ++ (if s.names ≠ 0 then [stat_event.rule] else []) ++
        [stat_event.total_line (decide (s.individual ≠ 0)) r.cba.tot],
      exit := false }

/-- The callbacks that contribute to the aggregate, in the words of the
specification: the per-torrent error is OK and the state is not inactive. -/
def contributes (cb : callback) : Bool :=
  decide (cb.objerr = IPC_OK) && decide ((cb.res .IPC_TVAL_STATE).num ≠ IPC_TSTATE_INACTIVE)

/-- The content-got value a callback carries. -/
def content_got_of (cb : callback) : Int := (cb.res .IPC_TVAL_CGOT).num

/-- No 64 bit overflow while the values are added up from `start` in order:
every partial sum is a `long long`. -/
def no_overflow64 (start : Int) (vals : List Int) : Prop :=
  ∀ k, -(2 ^ 63) ≤ start + (vals.take k).sum ∧ start + (vals.take k).sum < 2 ^ 63

/-! ## binary64 arithmetic and `printf` -/

/-- Rounding of a rational to the nearest integer, ties to the even one. -/
def round_half_even (q : ℚ) : Int :=
  if q - ⌊q⌋ < 1 / 2 then ⌊q⌋
  else if 1 / 2 < q - ⌊q⌋ then ⌊q⌋ + 1
  else if ⌊q⌋ % 2 = 0 then ⌊q⌋
  else ⌊q⌋ + 1

/-- The binary64 (`double`) value nearest to the rational `q`, ties to even:
`q` is scaled by the power of two that brings its magnitude into
`[2 ^ 52, 2 ^ 53)`, rounded to an integer and scaled back. Overflow and
subnormal numbers are out of reach of the values in this program (64 bit
integers, their products with 1000 and their quotients). -/
def fl (q : ℚ) : ℚ :=
  if q = 0 then 0
  else (round_half_even (q / 2 ^ (Int.log 2 |q| - 52)) : ℚ) * 2 ^ (Int.log 2 |q| - 52)

/-- The conversion `(double)n` of a `long long`. -/
def to_double (n : Int) : ℚ := fl (n : ℚ)

/-- The `double` literal `999.995`. -/
def double_999_995 : ℚ := fl (999995 / 1000)

/-- The decimal digit characters of `n`, most significant first, with `fuel`
bounding their number. -/
def dec_digits_aux : Nat → Nat → List Nat → List Nat
  | 0, _, acc => acc
  | fuel + 1, n, acc =>
    if n < 10 then (48 + n) :: acc
    else dec_digits_aux fuel (n / 10) ((48 + n % 10) :: acc)

/-- The decimal digit characters of `n`, as `%u` prints them. -/
def dec_digits (n : Nat) : List Nat := dec_digits_aux (n + 1) n []

/-- The last `k` decimal digit characters of `n`, with leading zeros. -/
def fixed_digits : Nat → Nat → List Nat
  | 0, _ => []
  | k + 1, n => fixed_digits k (n / 10) ++ [48 + n % 10]

/-- The magnitude `printf` shows for a `double` of value `x` at `prec` decimals,
in units of `10 ^ -prec`: the exact value rounded, ties to even. -/
def decimal_round (prec : Nat) (x : ℚ) : Nat := (round_half_even (|x| * 10 ^ prec)).toNat

/-- The conversion `%W.Pf` of `printf` (`W` is `width`, `P` is `prec`, positive)
applied to a `double` of value `x` and sign bit `neg`: the exact value is
rounded to `prec` decimals, ties to even, written with a `'-'` when the sign bit
is set, and padded with blanks on the left up to `width` characters. -/
def fmt_fixed (width prec : Nat) (neg : Bool) (x : ℚ) : List Nat :=
  let scaled := decimal_round prec x
  let body := (if neg then [45] else []) ++ dec_digits (scaled / 10 ^ prec) ++ [46] ++
    fixed_digits prec (scaled % 10 ^ prec)
  List.replicate (width - body.length) 32 ++ body

/-! ## The print helpers -/

/-- The function `print_percent(part, whole)`, as the text it writes. The
expression `floor(1000.0 * part / whole) / 10` is evaluated in `double`, every
operation rounding. For `whole = 0` the quotient is an infinity or a NaN, which
this model does not render (`none`). The sign bit of the result is set for
a negative value and for the negative zero, which arises exactly for
`part = 0` and `whole < 0`. -/
def print_percent (part whole : Int) : Option (List Nat) :=
  if whole = 0 then none
  else
    let x := fl (fl (1000 * to_double part) / to_double whole)
    let y := fl ((⌊x⌋ : ℚ) / 10)
    some (fmt_fixed 5 1 (decide (y < 0 ∨ (part = 0 ∧ whole < 0))) y ++ ascii "% ")

/-- The function `print_rate(rate)`, as the text it writes. -/
def print_rate (rate : Int) : List Nat :=
  if fl (double_999_995 * 2 ^ 10) ≤ to_double rate then
    fmt_fixed 6 2 (decide (rate < 0)) (fl (to_double rate / 2 ^ 20)) ++ ascii "MB/s "
  else
    fmt_fixed 6 2 (decide (rate < 0)) (fl (to_double rate / 2 ^ 10)) ++ ascii "kB/s "

/-- The function `print_size(size)`, as the text it writes. -/
def print_size (size : Int) : List Nat :=
  if fl (double_999_995 * 2 ^ 20) ≤ to_double size then
    fmt_fixed 6 2 (decide (size < 0)) (fl (to_double size / 2 ^ 30)) ++ ascii "G "
  else
    fmt_fixed 6 2 (decide (size < 0)) (fl (to_double size / 2 ^ 20)) ++ ascii "M "

/-! ## The list section: the callback -/

/-- The bytes `printf` writes for `%s` (and for `%.*s` given all the bytes of
the slot): the bytes up to the first NUL. -/
def cstr (s : List Nat) : List Nat := s.takeWhile (fun c => c ≠ 0)

/-- The text field `list_cb` stores for a name, directory or label slot: the
description of the error for an error slot, else the bytes of the slot
(`asprintf` with `%s` or `%.*s`). `ipc_strerror` is a parameter. -/
def text_field (ipc_strerror : Int → List Nat) (slot : ipc_get_res) : List Nat :=
  if slot.type = ipc_type.IPC_TYPE_ERR then cstr (ipc_strerror slot.num)
  else cstr slot.str

/-- The item `list_cb` fills in from the slots of `res`, given the state
character `st` that `tstate_char` returned: every numeric member is the slot's
`v.num` (converted to `unsigned` or `uint32_t` where the member is one), read
without a look at the slot's tag. -/
def list_item (ipc_strerror : Int → List Nat) (bin2hex : List Nat → List Nat)
    (res : ipc_tval → ipc_get_res) (st : Nat) : item :=
  { num := to_u32 (res .IPC_TVAL_NUM).num
    peers := to_u32 (res .IPC_TVAL_PCOUNT).num
    st := st
    name := text_field ipc_strerror (res .IPC_TVAL_NAME)
    dir := text_field ipc_strerror (res .IPC_TVAL_DIR)
    label := text_field ipc_strerror (res .IPC_TVAL_LABEL)
    hash := bin2hex (res .IPC_TVAL_IHASH).str
    cgot := (res .IPC_TVAL_CGOT).num
    csize := (res .IPC_TVAL_CSIZE).num
    totup := (res .IPC_TVAL_TOTUP).num
    downloaded := (res .IPC_TVAL_SESSDWN).num
    uploaded := (res .IPC_TVAL_SESSUP).num
    rate_up := (res .IPC_TVAL_RATEUP).num
    rate_down := (res .IPC_TVAL_RATEDWN).num
    torrent_pieces := to_u32 (res .IPC_TVAL_PCCOUNT).num
    pieces_seen := to_u32 (res .IPC_TVAL_PCSEEN).num
    pieces_have := to_u32 (res .IPC_TVAL_PCGOT).num }

/-- The function `list_cb(obji, objerr, res, arg)`; `none` is the exit through
`diemsg`, either for `objerr != IPC_OK` or, inside `tstate_char`, for a state
number that is no state. `ipc_strerror` and `bin2hex` (which fills `hash` from
the bytes of the info hash slot) belong to files that are not among the
sources and are parameters. -/
def list_cb (ipc_strerror : Int → List Nat) (bin2hex : List Nat → List Nat)
    (_obji : Int) (objerr : Int) (res : ipc_tval → ipc_get_res) (itms : items) :
    Option items :=
  if objerr ≠ IPC_OK then none
  else
    let itms1 : items := { itms with count := itms.count + 1 }
    match tstate_char (to_tstate (res .IPC_TVAL_STATE).num) with
    | none => none
    | some st => some (itm_insert itms1 (list_item ipc_strerror bin2hex res st))

/-- The numeric slots `list_cb` reads, in the words of the specification:
number, state, peer count, content got and size, totals, rates and the piece
counts. -/
def numeric_keys : List ipc_tval :=
  [.IPC_TVAL_NUM, .IPC_TVAL_STATE, .IPC_TVAL_PCOUNT, .IPC_TVAL_CGOT, .IPC_TVAL_CSIZE,
   .IPC_TVAL_TOTUP, .IPC_TVAL_SESSDWN, .IPC_TVAL_SESSUP, .IPC_TVAL_RATEUP, .IPC_TVAL_RATEDWN,
   .IPC_TVAL_PCCOUNT, .IPC_TVAL_PCSEEN, .IPC_TVAL_PCGOT]

/-! ## The list section: printing -/

/-- One unit of what the list command writes: a byte, or the text `printf`
produces for a `double` that is an infinity or a NaN (a division by a `whole`
of zero), which this model does not spell out. -/
inductive out_atom
  | chr (c : Nat)
  | nonfinite
  deriving DecidableEq, Repr

/-- Bytes as output. -/
def text (l : List Nat) : List out_atom := l.map out_atom.chr

/-- The conversion `%u`. -/
def fmt_u (n : Nat) : List Nat := dec_digits n

/-- The conversion `%lld`. -/
def fmt_lld (x : Int) : List Nat :=
  if x < 0 then 45 :: dec_digits x.natAbs else dec_digits x.toNat

/-- The function `print_ratio(part, whole)`, as the text it writes:
`"%7.2f "` of `(double)part / whole`. As in `print_percent`, `none` stands for
a `whole` of zero, and the sign bit is also set for the negative zero. -/
def print_ratio (part whole : Int) : Option (List Nat) :=
  if whole = 0 then none
  else
    let y := fl (to_double part / to_double whole)
    some (fmt_fixed 7 2 (decide (y < 0 ∨ (part = 0 ∧ whole < 0))) y ++ ascii " ")

/-- What `print_percent(part, whole)` writes. -/
def percent_out (part whole : Int) : List out_atom :=
  match print_percent part whole with
  | some t => text t
  | none => out_atom.nonfinite :: text (ascii "% ")

/-- What `print_ratio(part, whole)` writes. -/
def ratio_out (part whole : Int) : List out_atom :=
  match print_ratio part whole with
  | some t => text t
  | none => out_atom.nonfinite :: text (ascii " ")

/-- The inner `switch` after a `'%'` in `print_items`: what the field code `c`
writes for the item `p`. The codes are `%` 37, `#` 35, `^` 94, `A` 65, `D` 68,
`H` 72, `P` 80, `S` 83, `U` 85, `T` 84, `d` 100, `g` 103, `h` 104, `l` 108,
`n` 110, `p` 112, `r` 114, `s` 115, `t` 116, `u` 117, `v` 118; the NUL and
every other character write nothing. -/
def field_out (p : item) (c : Nat) : List out_atom :=
  if c = 37 then [out_atom.chr 37]
  else if c = 35 then text (fmt_u p.num)
  else if c = 94 then text (fmt_lld p.rate_up)
  else if c = 65 then text (fmt_u p.pieces_seen)
  else if c = 68 then text (fmt_lld p.downloaded)
  else if c = 72 then text (fmt_u p.pieces_have)
  else if c = 80 then text (fmt_u p.peers)
  else if c = 83 then text (fmt_lld p.csize)
  else if c = 85 then text (fmt_lld p.uploaded)
  else if c = 84 then text (fmt_u p.torrent_pieces)
  else if c = 100 then text (cstr p.dir)
  else if c = 103 then text (fmt_lld p.cgot)
  else if c = 104 then text (cstr p.hash)
  else if c = 108 then text (cstr p.label)
  else if c = 110 then text (cstr p.name)
  else if c = 112 then percent_out p.cgot p.csize
  else if c = 114 then ratio_out p.totup p.csize
  else if c = 115 then text (print_size p.csize)
  else if c = 116 then [out_atom.chr p.st]
  else if c = 117 then text (fmt_lld p.totup)
  else if c = 118 then text (fmt_lld p.rate_down)
  else []

/-- The inner `switch` after a backslash in `print_items`: `n` (110) writes a
newline, `t` (116) a tab, everything else nothing. -/
def escape_out (c : Nat) : List out_atom :=
  if c = 110 then [out_atom.chr 10]
  else if c = 116 then [out_atom.chr 9]
  else []

/-- The lead characters of the template language: `'%'` (37) and the backslash
(92). -/
def is_lead (c : Nat) : Bool := c == 37 || c == 92

/-- The offset of the terminating NUL of a C string held in `s`. -/
def strlen (s : List Nat) : Nat := (cstr s).length

/-- How the `for` loop over the template ended: its test found the terminating
NUL, or it dereferenced `it` beyond the terminating NUL (the behaviour is
undefined from there on and the model stops), or the model ran out of fuel. -/
inductive scan_end
  | at_terminator
  | past_terminator
  | out_of_fuel
  deriving DecidableEq, Repr

/-- What the scan of the template did for one item: what it wrote, the offsets
at which it dereferenced `it` (in order, each value of `it` once), and how it
ended. -/
structure scan_result where
  out : List out_atom
  examined : List Nat
  ended : scan_end
  deriving DecidableEq, Repr

/-- The loop `for (it = format; *it; ++it)` of `print_items` from the offset `i`
on. A lead character advances `it` to the code behind it and dispatches on that;
`break` and `continue` both reach the `++it` of the loop, so the next test is at
`i + 2`, also when the code was the NUL. -/
def scan_from (p : item) (format : List Nat) : Nat → Nat → scan_result
  | 0, _ => { out := [], examined := [], ended := scan_end.out_of_fuel }
  | fuel + 1, i =>
    if strlen format < i then
      { out := [], examined := [i], ended := scan_end.past_terminator }
    else if char_at format i = 0 then
      { out := [], examined := [i], ended := scan_end.at_terminator }
    else if char_at format i = 37 then
      let r := scan_from p format fuel (i + 2)
      { out := field_out p (char_at format (i + 1)) ++ r.out,
        examined := i :: (i + 1) :: r.examined, ended := r.ended }
    else if char_at format i = 92 then
      let r := scan_from p format fuel (i + 2)
      { out := escape_out (char_at format (i + 1)) ++ r.out,
        examined := i :: (i + 1) :: r.examined, ended := r.ended }
    else
      let r := scan_from p format fuel (i + 1)
      { out := out_atom.chr (char_at format i) :: r.out,
        examined := i :: r.examined, ended := r.ended }

/-- The scan of the whole template for one item; the fuel covers every offset
up to the one behind the terminating NUL. -/
def scan_template (p : item) (format : List Nat) : scan_result :=
  scan_from p format (format.length + 2) 0

/-- The conversion `%-40.40s`: at most 40 bytes, padded with blanks on the
right to 40. -/
def fmt_name40 (s : List Nat) : List Nat :=
  (cstr s).take 40 ++ List.replicate (40 - ((cstr s).take 40).length) 32

/-- The conversion `%4u`. -/
def fmt_4u (n : Nat) : List Nat :=
  List.replicate (4 - (dec_digits n).length) 32 ++ dec_digits n

/-- The fixed line of `print_items` for one item (no template). -/
def fixed_line (p : item) : List out_atom :=
  text (fmt_name40 p.name ++ [32] ++ fmt_4u p.num ++ [32, p.st, 46, 32]) ++
    percent_out p.cgot p.csize ++ text (print_size p.csize) ++ ratio_out p.totup p.csize ++
    [out_atom.chr 10]

/-- What `print_items` did: what it wrote, and whether a scan of the template
dereferenced `it` beyond the terminating NUL (where the model stops). -/
structure print_result where
  out : List out_atom
  overrun : Bool
  deriving DecidableEq, Repr

/-- The walk of `print_items` over the queue; `format` is `none` for `NULL`. -/
def print_queue (format : Option (List Nat)) : List item → print_result
  | [] => { out := [], overrun := false }
  | p :: rest =>
    match format with
    | none =>
      let r := print_queue format rest
      { out := fixed_line p ++ r.out, overrun := r.overrun }
    | some f =>
      let s := scan_template p f
      if s.ended = scan_end.at_terminator then
        let r := print_queue format rest
        { out := s.out ++ r.out, overrun := r.overrun }
      else { out := s.out, overrun := true }

/-- The function `print_items(itms, format)`. -/
def print_items (itms : items) (format : Option (List Nat)) : print_result :=
  print_queue format itms.hd

/-- The template ends with a lone lead character, in the words of the claim:
in the left-to-right scan in which each lead character consumes the character
that follows it, the last character is a lead character with nothing behind
it. -/
def ends_with_lone_lead : List Nat → Bool
  | [] => false
  | [c] => is_lead c
  | c :: d :: rest =>
    if is_lead c then ends_with_lone_lead rest else ends_with_lone_lead (d :: rest)

/-! ## The commands del, start and stop -/

/-- Modelled from the spec: the code `IPC_COMMERR` of `enum ipc_err` (`btpd_if.h`,
not among the sources), the channel-level communication failure; taken as the
enumerator after `IPC_OK`. No statement below depends on the number, only on
its being different from `IPC_OK`. -/
def IPC_COMMERR : Int := 1

/-- What a command writes on the error stream, one entry per message: the bad
torrent message of `torrent_spec`, the communication error of `handle_ipc_res`
(written by `diemsg`), its message for any other error code, and the message
of `btpd_connect`. -/
inductive err_event
  | bad_torrent (token : List Nat)
  | comm_error
  | cmd_failed (cmd target : List Nat) (code : Int)
  | cannot_connect
  deriving DecidableEq, Repr

/-- The function `handle_ipc_res(code, cmd, target)`: the code it returns, or
`none` for the exit through `diemsg` on `IPC_COMMERR`, and what it wrote. -/
def handle_ipc_res (code : Int) (cmd target : List Nat) : Option Int × List err_event :=
  if code = IPC_OK then (some code, [])
  else if code = IPC_COMMERR then (none, [err_event.comm_error])
  else (some code, [err_event.cmd_failed cmd target code])

/-- The state of a command while it walks its tokens: the local
`struct ipc_torrent t`, the requests sent to the daemon so far, the messages
written so far, and the exit status once the process has left through `exit`. -/
structure cmd_state where
  t : ipc_torrent
  sent : List ipc_torrent
  err : List err_event
  exited : Option Int
  deriving DecidableEq, Repr

/-- The loop `for (i = 0; i < argc; i++) if (torrent_spec(argv[i], &t))
handle_ipc_res(request(ipc, &t), cmd, argv[i]);` shared by `cmd_del`,
`cmd_start` and `cmd_stop`. The daemon is a parameter: `answer k t` is the code
it returns to the request number `k` (counted from 0), made for the torrent
`t`. -/
def each_token (mi_load : List Nat → Option (List Nat))
    (mi_info_hash : List Nat → List Nat) (cmd : List Nat)
    (answer : Nat → ipc_torrent → Int) : List (List Nat) → cmd_state → cmd_state
  | [], s => s
  | tok :: rest, s =>
    let r := torrent_spec mi_load mi_info_hash tok s.t
    let said : List err_event :=
      match r.reported with
      | some bad => [err_event.bad_torrent bad]
      | none => []
    if r.ret ≠ 0 then
      let code := answer s.sent.length r.tp
      let h := handle_ipc_res code cmd tok
      let s1 : cmd_state :=
        { t := r.tp, sent := s.sent ++ [r.tp], err := s.err ++ said ++ h.2,
          exited := s.exited }
      match h.1 with
      | none => { s1 with exited := some 1 }
      | some _ => each_token mi_load mi_info_hash cmd answer rest s1
    else
      each_token mi_load mi_info_hash cmd answer rest
        { s with t := r.tp, err := s.err ++ said }

/-- What a run of `btcli` did: the requests it sent to the daemon, in order,
what it wrote on the error stream, whether it wrote the usage text of the
command (with `printf`, on the standard output), and its exit status. -/
structure cmd_result where
  sent : List ipc_torrent
  err : List err_event
  usage : Bool
  status : Int
  deriving DecidableEq, Repr

/-- The process `btcli <cmd> token ...` for `cmd` one of `del`, `start`, `stop`
(no option given), from `main` on: the command function is entered with the
tokens `args`; without a token it writes its usage text and leaves, `exit(1)`;
`btpd_connect` leaves through `diemsg` when `ipc_open` fails (`connected` is
false); then the tokens are walked, and when the command function returns,
`main` returns 0. `t0` is the not yet initialised local `t`. -/
def run_token_cmd (mi_load : List Nat → Option (List Nat))
    (mi_info_hash : List Nat → List Nat) (cmd : List Nat) (connected : Bool)
    (answer : Nat → ipc_torrent → Int) (t0 : ipc_torrent) (args : List (List Nat)) :
    cmd_result :=
  if args = [] then { sent := [], err := [], usage := true, status := 1 }
  else if connected = false then
    { sent := [], err := [err_event.cannot_connect], usage := false, status := 1 }
  else
    let s := each_token mi_load mi_info_hash cmd answer args
      { t := t0, sent := [], err := [], exited := none }
    match s.exited with
    | some code => { sent := s.sent, err := s.err, usage := false, status := code }
    | none => { sent := s.sent, err := s.err, usage := false, status := 0 }

/-- The process `btcli del token ...`: `main` and `cmd_del`. -/
def cmd_del (mi_load : List Nat → Option (List Nat)) (mi_info_hash : List Nat → List Nat)
    (connected : Bool) (btpd_del : Nat → ipc_torrent → Int) (t0 : ipc_torrent)
    (args : List (List Nat)) : cmd_result :=
  run_token_cmd mi_load mi_info_hash (ascii "del") connected btpd_del t0 args

/-- The process `btcli start token ...` (without `-a`): `main` and `cmd_start`. -/
def cmd_start (mi_load : List Nat → Option (List Nat)) (mi_info_hash : List Nat → List Nat)
    (connected : Bool) (btpd_start : Nat → ipc_torrent → Int) (t0 : ipc_torrent)
    (args : List (List Nat)) : cmd_result :=
  run_token_cmd mi_load mi_info_hash (ascii "start") connected btpd_start t0 args

/-- The process `btcli stop token ...` (without `-a`): `main` and `cmd_stop`. -/
def cmd_stop (mi_load : List Nat → Option (List Nat)) (mi_info_hash : List Nat → List Nat)
    (connected : Bool) (btpd_stop : Nat → ipc_torrent → Int) (t0 : ipc_torrent)
    (args : List (List Nat)) : cmd_result :=
  run_token_cmd mi_load mi_info_hash (ascii "stop") connected btpd_stop t0 args

/-! ## The stat section: the poll loop -/

/-- The poll cycles of `do_stat` from the label `again` on, at most `fuel` of
them: a cycle that leaves through `diemsg` is the last, and so is the first one
when `seconds` is not positive; otherwise the loop sleeps and goes round again,
without end. `answers k` is the answer of the daemon to the query of the cycle
number `k` (counted from 0): the callbacks it fires and the code it returns. -/
def do_stat_cycles (seconds : Int) (answers : Nat → List callback × Int) :
    Nat → Nat → stat_state → List cycle_result
  | 0, _, _ => []
  | fuel + 1, k, s =>
    let r := stat_cycle s (answers k).1 (answers k).2
    if r.exit then [r]
    else if seconds > 0 then r :: do_stat_cycles seconds answers fuel (k + 1) r.state
    else [r]

/-- The function `do_stat(individual, names, seconds, tps, ntps)`, as the list
of the poll cycles it runs within `fuel` cycles. The targets `tps`, `ntps` only
select which query is sent; its answers are the parameter `answers`. -/
def do_stat (individual names seconds : Int) (tot : btstat)
    (answers : Nat → List callback × Int) (fuel : Nat) : List cycle_result :=
  do_stat_cycles seconds answers fuel 0 (do_stat_init individual names tot)

/-- A cycle printed the header line. -/
def prints_header (r : cycle_result) : Prop :=
  ∃ b, stat_event.header b ∈ r.out

/-! # Theorems -/

/-! ### Properties of `strcmp` -/

theorem strcmp_swap (x y : List Nat) : strcmp y x = - strcmp x y := by
  induction x generalizing y with
  | nil => cases y <;> simp [strcmp]
  | cons a as ih =>
    cases y with
    | nil => simp [strcmp]
    | cons b bs =>
      simp only [strcmp]
      by_cases hab : a = b
      · subst hab
        by_cases h0 : a = 0
        · simp [h0]
        · simp [h0, ih bs]
      · have hba : b ≠ a := fun h => hab h.symm
        simp [hab, hba]

theorem strcmp_self (x : List Nat) : strcmp x x = 0 := by
  have := strcmp_swap x x
  omega

theorem strcmp_le_trans (x y z : List Nat) (hxy : strcmp x y ≤ 0) (hyz : strcmp y z ≤ 0) :
    strcmp x z ≤ 0 := by
  induction x generalizing y z with
  | nil => cases z <;> simp [strcmp]
  | cons a as ih =>
    cases y with
    | nil =>
      cases z with
      | nil => simpa [strcmp] using hxy
      | cons c cs =>
        simp only [strcmp] at hxy hyz ⊢
        split_ifs <;> omega
    | cons b bs =>
      cases z with
      | nil =>
        simp only [strcmp] at hxy hyz ⊢
        split_ifs at hxy <;> omega
      | cons c cs =>
        simp only [strcmp] at hxy hyz ⊢
        by_cases hab : a = b
        · by_cases hbc : b = c
          · subst hab; subst hbc
            by_cases h0 : a = 0
            · simp [h0]
            · simp only [h0, ne_eq, not_true_eq_false, if_false] at hxy hyz ⊢
              exact ih bs cs hxy hyz
          · subst hab
            simp only [ne_eq, not_true_eq_false, if_false, hbc, not_false_eq_true, if_true] at hxy hyz ⊢
            omega
        · by_cases hbc : b = c
          · subst hbc
            simp only [ne_eq, hab, not_false_eq_true, if_true] at hxy ⊢
            omega
          · simp only [ne_eq, hab, hbc, not_false_eq_true, if_true] at hxy hyz
            have hac : a ≠ c := by omega
            simp only [ne_eq, hac, not_false_eq_true, if_true]
            omega

/-- On strings without an embedded NUL, `strcmp` returns `0` exactly for equal
strings. -/
theorem strcmp_eq_zero_iff (x y : List Nat) (hx : 0 ∉ x) (hy : 0 ∉ y) :
    strcmp x y = 0 ↔ x = y := by
  induction x generalizing y with
  | nil =>
    cases y with
    | nil => simp [strcmp]
    | cons b bs =>
      have hb : b ≠ 0 := fun h => hy (by simp [h])
      simp only [strcmp]
      constructor
      · intro h; omega
      · intro h; cases h
  | cons a as ih =>
    have ha : a ≠ 0 := fun h => hx (by simp [h])
    have has : 0 ∉ as := fun h => hx (List.mem_cons_of_mem _ h)
    cases y with
    | nil =>
      simp only [strcmp]
      constructor
      · intro h; omega
      · intro h; cases h
    | cons b bs =>
      have hbs : 0 ∉ bs := fun h => hy (List.mem_cons_of_mem _ h)
      simp only [strcmp]
      by_cases hab : a = b
      · subst hab
        simp [ha, ih bs has hbs]
      · simp only [ne_eq, hab, not_false_eq_true, if_true, List.cons.injEq, false_and, iff_false]
        omega

theorem strcmp_lt_of_lt_of_le (x y z : List Nat) (hxy : strcmp x y < 0) (hyz : strcmp y z ≤ 0) :
    strcmp x z < 0 := by
  by_contra hcon
  have hzx : strcmp z x ≤ 0 := by
    have := strcmp_swap x z
    omega
  have hyx := strcmp_le_trans y z x hyz hzx
  have := strcmp_swap x y
  omega

theorem strcmp_eq_zero_trans (x y k : List Nat) (hx : strcmp x k = 0) (hy : strcmp y k = 0) :
    strcmp x y = 0 := by
  have hky : strcmp k y = 0 := by
    have := strcmp_swap y k
    omega
  have hkx : strcmp k x = 0 := by
    have := strcmp_swap x k
    omega
  have h1 := strcmp_le_trans x k y (by omega) (by omega)
  have h2 := strcmp_le_trans y k x (by omega) (by omega)
  have := strcmp_swap x y
  omega

theorem name_le_trans (a b c : item) (hab : name_le a b = true) (hbc : name_le b c = true) :
    name_le a c = true := by
  simp only [name_le, decide_eq_true_eq] at *
  exact strcmp_le_trans _ _ _ hab hbc

theorem name_le_total (a b : item) : (name_le a b || name_le b a) = true := by
  simp only [name_le, Bool.or_eq_true, decide_eq_true_eq]
  have := strcmp_swap a.name b.name
  omega

/-! ### Sorted insertion -/

theorem insert_queue_perm (itm : item) (l : List item) :
    (insert_queue itm l).Perm (itm :: l) := by
  induction l with
  | nil => simp [insert_queue]
  | cons p rest ih =>
    simp only [insert_queue]
    split_ifs
    · exact List.Perm.refl _
    · exact (List.Perm.cons p ih).trans (List.Perm.swap itm p rest)

theorem insert_queue_sorted (itm : item) (l : List item)
    (hl : l.Pairwise (fun a b => name_le a b = true)) :
    (insert_queue itm l).Pairwise (fun a b => name_le a b = true) := by
  induction l with
  | nil => simp [insert_queue]
  | cons p rest ih =>
    have hp : ∀ q ∈ rest, name_le p q = true := fun q hq => List.rel_of_pairwise_cons hl hq
    have hrest := List.Pairwise.of_cons hl
    simp only [insert_queue]
    split_ifs with hlt
    · refine List.Pairwise.cons ?_ hl
      intro q hq
      simp only [name_le, decide_eq_true_eq]
      rcases List.mem_cons.mp hq with rfl | hq
      · omega
      · have hpq := hp q hq
        simp only [name_le, decide_eq_true_eq] at hpq
        have := strcmp_lt_of_lt_of_le _ _ _ hlt hpq
        omega
    · refine List.Pairwise.cons ?_ (ih hrest)
      intro q hq
      have hq2 : q ∈ itm :: rest := (insert_queue_perm itm rest).subset hq
      rcases List.mem_cons.mp hq2 with rfl | hq2
      · simp only [name_le, decide_eq_true_eq]
        have := strcmp_swap q.name p.name
        omega
      · exact hp q hq2

theorem insert_queue_filter (key : List Nat) (itm : item) (l : List item)
    (hl : l.Pairwise (fun a b => name_le a b = true)) :
    (insert_queue itm l).filter (same_name key) = (l ++ [itm]).filter (same_name key) := by
  induction l with
  | nil => simp [insert_queue]
  | cons p rest ih =>
    have hp : ∀ q ∈ rest, name_le p q = true := fun q hq => List.rel_of_pairwise_cons hl hq
    have hrest := List.Pairwise.of_cons hl
    simp only [insert_queue]
    split_ifs with hlt
    · by_cases hk : same_name key itm = true
      · have hnone : ∀ q ∈ p :: rest, ¬ (same_name key q = true) := by
          intro q hq hqk
          have hpq : strcmp p.name q.name ≤ 0 := by
            rcases List.mem_cons.mp hq with rfl | hq
            · rw [strcmp_self]
            · simpa [name_le] using hp q hq
          have h1 := strcmp_lt_of_lt_of_le _ _ _ hlt hpq
          simp only [same_name, decide_eq_true_eq] at hk hqk
          have := strcmp_eq_zero_trans _ _ _ hk hqk
          omega
        have hnil : (p :: rest).filter (same_name key) = [] :=
          List.filter_eq_nil_iff.mpr hnone
        rw [List.filter_append, hnil, List.filter_cons_of_pos hk, hnil]
        simp [hk]
      · rw [List.filter_append, List.filter_cons_of_neg hk]
        simp [hk]
    · by_cases hpk : same_name key p = true
      · rw [List.filter_cons_of_pos hpk, ih hrest, List.cons_append,
          List.filter_cons_of_pos hpk]
      · rw [List.filter_cons_of_neg hpk, ih hrest, List.cons_append,
          List.filter_cons_of_neg hpk]

theorem insert_all_hd (itms : items) (arrivals : List item) :
    (insert_all itms arrivals).hd = arrivals.foldl (fun l itm => insert_queue itm l) itms.hd := by
  induction arrivals generalizing itms with
  | nil => rfl
  | cons a rest ih =>
    simp only [insert_all, List.foldl_cons] at ih ⊢
    rw [ih (itm_insert itms a)]
    rfl

theorem foldl_insert_queue_spec (arrivals : List item) :
    let r := arrivals.foldl (fun l itm => insert_queue itm l) []
    r.Perm arrivals ∧ r.Pairwise (fun a b => name_le a b = true) ∧
      ∀ key, r.filter (same_name key) = arrivals.filter (same_name key) := by
  induction arrivals using List.reverseRecOn with
  | nil => simp
  | append_singleton l a ih =>
    obtain ⟨hperm, hsorted, hfilter⟩ := ih
    simp only [List.foldl_append, List.foldl_cons, List.foldl_nil]
    refine ⟨?_, insert_queue_sorted a _ hsorted, ?_⟩
    · refine (insert_queue_perm a _).trans ?_
      exact (List.Perm.cons a hperm).trans (List.perm_append_singleton a l).symm
    · intro key
      rw [insert_queue_filter key a _ hsorted, List.filter_append, hfilter key,
        List.filter_append]

/-- Two lists sorted by name that agree on every class of equal names are the
same list: the stable sort is unique. -/
theorem sorted_stable_unique (l₁ l₂ : List item)
    (h₁ : l₁.Pairwise (fun a b => name_le a b = true))
    (h₂ : l₂.Pairwise (fun a b => name_le a b = true))
    (hf : ∀ key, l₁.filter (same_name key) = l₂.filter (same_name key)) : l₁ = l₂ := by
  induction l₁ generalizing l₂ with
  | nil =>
    cases l₂ with
    | nil => rfl
    | cons b t₂ =>
      have := hf b.name
      simp [same_name, strcmp_self] at this
  | cons a t₁ ih =>
    cases l₂ with
    | nil =>
      have := hf a.name
      simp [same_name, strcmp_self] at this
    | cons b t₂ =>
      have haa : same_name a.name a = true := by simp [same_name, strcmp_self]
      have hbb : same_name b.name b = true := by simp [same_name, strcmp_self]
      have ha2 : a ∈ b :: t₂ := by
        have hmem : a ∈ (a :: t₁).filter (same_name a.name) := by
          rw [List.filter_cons_of_pos haa]; exact List.mem_cons_self _ _
        rw [hf a.name] at hmem
        exact List.mem_of_mem_filter hmem
      have hb1 : b ∈ a :: t₁ := by
        have hmem : b ∈ (b :: t₂).filter (same_name b.name) := by
          rw [List.filter_cons_of_pos hbb]; exact List.mem_cons_self _ _
        rw [← hf b.name] at hmem
        exact List.mem_of_mem_filter hmem
      have hba : strcmp b.name a.name ≤ 0 := by
        rcases List.mem_cons.mp ha2 with h | h
        · rw [h, strcmp_self]
        · simpa [name_le] using List.rel_of_pairwise_cons h₂ h
      have hab : strcmp a.name b.name ≤ 0 := by
        rcases List.mem_cons.mp hb1 with h | h
        · rw [h, strcmp_self]
        · simpa [name_le] using List.rel_of_pairwise_cons h₁ h
      have hz : strcmp b.name a.name = 0 := by
        have := strcmp_swap a.name b.name
        omega
      have hbk : same_name a.name b = true := by simp [same_name, hz]
      have hkey := hf a.name
      rw [List.filter_cons_of_pos haa, List.filter_cons_of_pos hbk] at hkey
      have heq : a = b := (List.cons.inj hkey).1
      subst heq
      congr 1
      apply ih t₂ (List.Pairwise.of_cons h₁) (List.Pairwise.of_cons h₂)
      intro key
      have hk := hf key
      by_cases hak : same_name key a = true
      · rw [List.filter_cons_of_pos hak, List.filter_cons_of_pos hak] at hk
        exact (List.cons.inj hk).2
      · rw [List.filter_cons_of_neg hak, List.filter_cons_of_neg hak] at hk
        exact hk

theorem mergeSort_filter_same_name (key : List Nat) (l : List item) :
    (l.mergeSort name_le).filter (same_name key) = l.filter (same_name key) := by
  have hsorted : (l.filter (same_name key)).Pairwise (fun a b => name_le a b = true) := by
    rw [List.pairwise_iff_forall_sublist]
    intro a b hab
    have ha : a ∈ l.filter (same_name key) := hab.subset (by simp)
    have hb : b ∈ l.filter (same_name key) := hab.subset (by simp)
    have ha2 := (List.mem_filter.mp ha).2
    have hb2 := (List.mem_filter.mp hb).2
    simp only [same_name, decide_eq_true_eq] at ha2 hb2
    have := strcmp_eq_zero_trans _ _ _ ha2 hb2
    simp only [name_le, decide_eq_true_eq]
    omega
  have hsub : List.Sublist (l.filter (same_name key)) (l.mergeSort name_le) :=
    List.sublist_mergeSort name_le_trans name_le_total hsorted (List.filter_sublist l)
  have hsub2 : List.Sublist (l.filter (same_name key))
      ((l.mergeSort name_le).filter (same_name key)) := by
    have := hsub.filter (same_name key)
    simpa [List.filter_filter] using this
  have hlen : ((l.mergeSort name_le).filter (same_name key)).length
      = (l.filter (same_name key)).length :=
    ((List.mergeSort_perm l name_le).filter _).length_eq
  exact (hsub2.eq_of_length hlen.symm).symm

/-- Restricting further inside a class of equal names keeps the agreement. -/
theorem filter_name_eq_of_same_name (n : List Nat) (l₁ l₂ : List item)
    (h : l₁.filter (same_name n) = l₂.filter (same_name n)) :
    l₁.filter (fun a => decide (a.name = n)) = l₂.filter (fun a => decide (a.name = n)) := by
  have key : ∀ l : List item,
      (l.filter (same_name n)).filter (fun a => decide (a.name = n))
        = l.filter (fun a => decide (a.name = n)) := by
    intro l
    rw [List.filter_filter]
    congr 1
    funext a
    by_cases ha : a.name = n
    · simp [ha, same_name, strcmp_self]
    · simp [ha]
  rw [← key l₁, ← key l₂, h]

/-! ### C1 -/

/-- C1: for every arrival sequence, the queue built by calling `itm_insert` on
each arrival in turn, starting from the empty queue, is the stable sort of the
arrivals by name under `strcmp`: it equals the (stable) merge sort of the
arrivals, it is a permutation of them, names ascend, and the items of every
class of `strcmp`-equal names, and so the items of every single name, stand in
arrival order. -/
theorem C1_insert_all_is_stable_sort (itms : items) (arrivals : List item) :
    (insert_all { itms with hd := [] } arrivals).hd = stable_sort_by_name arrivals ∧
    (insert_all { itms with hd := [] } arrivals).hd.Perm arrivals ∧
    (insert_all { itms with hd := [] } arrivals).hd.Pairwise
      (fun a b => strcmp a.name b.name ≤ 0) ∧
    (∀ key, (insert_all { itms with hd := [] } arrivals).hd.filter
        (fun a => decide (strcmp a.name key = 0))
      = arrivals.filter (fun a => decide (strcmp a.name key = 0))) ∧
    (∀ n, (insert_all { itms with hd := [] } arrivals).hd.filter (fun a => decide (a.name = n))
      = arrivals.filter (fun a => decide (a.name = n))) := by
  rw [insert_all_hd]
  obtain ⟨hperm, hsorted, hfilter⟩ := foldl_insert_queue_spec arrivals
  refine ⟨?_, hperm, ?_, hfilter, ?_⟩
  · apply sorted_stable_unique _ _ hsorted
    · exact List.sorted_mergeSort name_le_trans name_le_total arrivals
    · intro key
      rw [hfilter key]
      exact (mergeSort_filter_same_name key arrivals).symm
  · refine hsorted.imp ?_
    intro a b hab
    simpa [name_le] using hab
  · intro n
    exact filter_name_eq_of_same_name n _ _ (hfilter n)

/-! ### The scan of `strtol` and `strtoul` -/

theorem takeWhile_dropWhile_stop (p : Nat → Bool) (l₁ l₂ : List Nat)
    (h₁ : ∀ a ∈ l₁, p a = true) (h₂ : ∀ c, l₂.head? = some c → p c = false) :
    (l₁ ++ l₂).takeWhile p = l₁ ∧ (l₁ ++ l₂).dropWhile p = l₂ := by
  rw [List.takeWhile_append_of_pos h₁, List.dropWhile_append_of_pos h₁]
  cases l₂ with
  | nil => simp
  | cons c cs =>
    have hc : ¬ (p c = true) := by simp [h₂ c rfl]
    simp [List.takeWhile_cons_of_neg hc, List.dropWhile_cons_of_neg hc]

theorem head_dropWhile_stop (p : Nat → Bool) (l : List Nat) :
    ∀ c, (l.dropWhile p).head? = some c → p c = false := by
  induction l with
  | nil => simp
  | cons a as ih =>
    intro c hc
    by_cases ha : p a = true
    · rw [List.dropWhile_cons_of_pos ha] at hc
      exact ih c hc
    · rw [List.dropWhile_cons_of_neg ha] at hc
      simp only [List.head?_cons, Option.some.injEq] at hc
      subst hc
      simpa using ha

theorem isdigit_not_isspace (c : Nat) (h : isdigit c = true) : isspace c = false := by
  simp only [isdigit, Bool.and_eq_true, decide_eq_true_eq] at h
  simp only [isspace, Bool.or_eq_false_iff, beq_eq_false_iff_ne, Bool.and_eq_false_iff,
    decide_eq_false_iff_not]
  omega

theorem scan_number_stages (s ws s1 ds : List Nat) (sgn : Nat) (neg : Bool)
    (h1 : s.takeWhile isspace = ws) (h2 : s.dropWhile isspace = s1)
    (h3 : (if s1.head? = some 45 ∨ s1.head? = some 43 then 1 else 0) = sgn)
    (h4 : (s1.drop sgn).takeWhile isdigit = ds)
    (h5 : decide (s1.head? = some 45) = neg) :
    scan_number s =
      if ds = [] then none
      else some { negative := neg, magnitude := digits_value ds,
                  consumed := ws.length + sgn + ds.length } := by
  subst h1 h2 h3 h4 h5
  rfl

theorem scan_sign_stage (sg tl : List Nat) (hsg : sg = [] ∨ sg = [43] ∨ sg = [45])
    (hnosign : sg = [] → ∀ c, tl.head? = some c → c ≠ 43 ∧ c ≠ 45) :
    (if (sg ++ tl).head? = some 45 ∨ (sg ++ tl).head? = some 43 then 1 else 0) = sg.length ∧
    (sg ++ tl).drop sg.length = tl ∧
    decide ((sg ++ tl).head? = some 45) = decide (sg = [45]) := by
  rcases hsg with rfl | rfl | rfl
  · have h := hnosign rfl
    cases tl with
    | nil => simp
    | cons c cs =>
      have hc := h c rfl
      simp [hc.1, hc.2]
  · simp
  · simp

/-- The scan of a string of the accepted shape: white space, an optional sign,
at least one digit, and a rest that does not start with a digit. -/
theorem scan_number_of_shape (ws sg ds rest : List Nat)
    (hws : ∀ c ∈ ws, isspace c = true)
    (hsg : sg = [] ∨ sg = [43] ∨ sg = [45])
    (hne : ds ≠ []) (hds : ∀ c ∈ ds, isdigit c = true)
    (hrest : ∀ c, rest.head? = some c → isdigit c = false) :
    scan_number (ws ++ sg ++ ds ++ rest) =
      some { negative := decide (sg = [45]), magnitude := digits_value ds,
             consumed := ws.length + sg.length + ds.length } := by
  obtain ⟨d, ds', rfl⟩ := List.exists_cons_of_ne_nil hne
  have hd : isdigit d = true := hds d (List.mem_cons_self _ _)
  have hdsp : isspace d = false := isdigit_not_isspace d hd
  have hd4 : d ≠ 43 ∧ d ≠ 45 := by
    simp only [isdigit, Bool.and_eq_true, decide_eq_true_eq] at hd; omega
  have hstop : ∀ c, (sg ++ (d :: ds' ++ rest)).head? = some c → isspace c = false := by
    intro c hc
    rcases hsg with rfl | rfl | rfl
    · simp only [List.nil_append, List.cons_append, List.head?_cons, Option.some.injEq] at hc
      subst hc; exact hdsp
    · simp only [List.cons_append, List.head?_cons, Option.some.injEq] at hc
      subst hc; decide
    · simp only [List.cons_append, List.head?_cons, Option.some.injEq] at hc
      subst hc; decide
  have hsplit := takeWhile_dropWhile_stop isspace ws (sg ++ (d :: ds' ++ rest)) hws hstop
  have hdig := takeWhile_dropWhile_stop isdigit (d :: ds') rest hds hrest
  have hsign := scan_sign_stage sg (d :: ds' ++ rest) hsg (by
    intro _ c hc
    simp only [List.cons_append, List.head?_cons, Option.some.injEq] at hc
    subst hc; exact hd4)
  have hassoc : ws ++ sg ++ d :: ds' ++ rest = ws ++ (sg ++ (d :: ds' ++ rest)) := by
    simp [List.append_assoc]
  rw [hassoc, scan_number_stages _ ws (sg ++ (d :: ds' ++ rest)) (d :: ds') sg.length
    (decide (sg = [45])) hsplit.1 hsplit.2 hsign.1 (by rw [hsign.2.1]; exact hdig.1) hsign.2.2]
  simp

/-- Every string splits in the way the scan reads it. -/
theorem scan_number_shape (s : List Nat) :
    ∃ ws sg ds rest, s = ws ++ sg ++ ds ++ rest ∧
      (∀ c ∈ ws, isspace c = true) ∧ (sg = [] ∨ sg = [43] ∨ sg = [45]) ∧
      (∀ c ∈ ds, isdigit c = true) ∧ (∀ c, rest.head? = some c → isdigit c = false) ∧
      (∀ c, (sg ++ ds ++ rest).head? = some c → isspace c = false) ∧
      (sg = [] → ∀ c, (ds ++ rest).head? = some c → c ≠ 43 ∧ c ≠ 45) := by
  have hws : ∀ c ∈ s.takeWhile isspace, isspace c = true := fun c hc =>
    List.mem_takeWhile_imp hc
  have hs1 := head_dropWhile_stop isspace s
  have hsplit1 : s = s.takeWhile isspace ++ s.dropWhile isspace :=
    (List.takeWhile_append_dropWhile isspace s).symm
  generalize s.takeWhile isspace = ws at hws hsplit1
  generalize s.dropWhile isspace = s1 at hs1 hsplit1
  have key : ∃ sg s2, s1 = sg ++ s2 ∧ (sg = [] ∨ sg = [43] ∨ sg = [45]) ∧
      (sg = [] → ∀ c, s2.head? = some c → c ≠ 43 ∧ c ≠ 45) := by
    cases s1 with
    | nil => exact ⟨[], [], rfl, Or.inl rfl, by simp⟩
    | cons a as =>
      by_cases h43 : a = 43
      · exact ⟨[43], as, by simp [h43], Or.inr (Or.inl rfl), by simp⟩
      · by_cases h45 : a = 45
        · exact ⟨[45], as, by simp [h45], Or.inr (Or.inr rfl), by simp⟩
        · refine ⟨[], a :: as, rfl, Or.inl rfl, ?_⟩
          intro _ c hc
          simp only [List.head?_cons, Option.some.injEq] at hc
          subst hc
          exact ⟨h43, h45⟩
  obtain ⟨sg, s2, hs2, hsg, hnosign⟩ := key
  refine ⟨ws, sg, s2.takeWhile isdigit, s2.dropWhile isdigit, ?_, hws, hsg,
    fun c hc => List.mem_takeWhile_imp hc, head_dropWhile_stop isdigit s2, ?_, ?_⟩
  · rw [hsplit1, hs2]
    simp [List.append_assoc]
  · intro c hc
    apply hs1 c
    rw [hs2]
    simpa [List.append_assoc] using hc
  · intro h c hc
    apply hnosign h c
    simpa using hc

theorem scan_number_none_of_no_digit (ws sg rest : List Nat)
    (hws : ∀ c ∈ ws, isspace c = true)
    (hsg : sg = [] ∨ sg = [43] ∨ sg = [45])
    (hrest : ∀ c, rest.head? = some c → isdigit c = false)
    (hstop : ∀ c, (sg ++ rest).head? = some c → isspace c = false)
    (hnosign : sg = [] → ∀ c, rest.head? = some c → c ≠ 43 ∧ c ≠ 45) :
    scan_number (ws ++ sg ++ rest) = none := by
  have hsplit := takeWhile_dropWhile_stop isspace ws (sg ++ rest) hws hstop
  have hdig := takeWhile_dropWhile_stop isdigit [] rest (by simp) hrest
  simp only [List.nil_append] at hdig
  have hsign := scan_sign_stage sg rest hsg hnosign
  rw [List.append_assoc, scan_number_stages _ ws (sg ++ rest) [] sg.length
    (decide (sg = [45])) hsplit.1 hsplit.2 hsign.1 (by rw [hsign.2.1]; exact hdig.1) hsign.2.2]
  simp

theorem char_at_append (l r : List Nat) (i : Nat) :
    char_at (l ++ r) (l.length + i) = char_at r i := by
  induction l with
  | nil => simp [char_at]
  | cons a as ih =>
    have h : (a :: as).length + i = (as.length + i) + 1 := by simp; omega
    simp only [char_at] at ih ⊢
    rw [List.cons_append, h, List.getD_cons_succ]
    exact ih

theorem char_at_length (l r : List Nat) : char_at (l ++ r) l.length = char_at r 0 := by
  simpa using char_at_append l r 0

theorem char_at_ne_zero (s : List Nat) (hnul : 0 ∉ s) (hne : s ≠ []) : char_at s 0 ≠ 0 := by
  cases s with
  | nil => exact absurd rfl hne
  | cons a as =>
    simp only [char_at, List.getD_cons_zero]
    intro h
    exact hnul (by simp [h])

theorem digits_value_foldl (ds : List Nat) (hd : ∀ d ∈ ds, d < 10) (acc : Nat) :
    (ds.map (· + 48)).foldl (fun acc c => 10 * acc + (c - 48)) acc
      = acc * 10 ^ ds.length + Nat.ofDigits 10 ds.reverse := by
  induction ds generalizing acc with
  | nil => simp
  | cons d ds ih =>
    have hds : ∀ x ∈ ds, x < 10 := fun x hx => hd x (List.mem_cons_of_mem _ hx)
    simp only [List.map_cons, List.foldl_cons, List.reverse_cons, List.length_cons]
    rw [ih hds, Nat.ofDigits_append, Nat.ofDigits_singleton, List.length_reverse]
    simp only [Nat.add_sub_cancel]
    ring

/-- The digit characters of a digit list denote its decimal value. -/
theorem digits_value_map (ds : List Nat) (hd : ∀ d ∈ ds, d < 10) :
    digits_value (ds.map (· + 48)) = decimal_value ds := by
  unfold digits_value decimal_value
  rw [digits_value_foldl ds hd 0]
  simp

theorem isdigit_map (ds : List Nat) (hd : ∀ d ∈ ds, d < 10) :
    ∀ c ∈ ds.map (· + 48), isdigit c = true := by
  intro c hc
  obtain ⟨d, hdm, rfl⟩ := List.mem_map.mp hc
  have := hd d hdm
  simp only [isdigit, Bool.and_eq_true, decide_eq_true_eq]
  omega

/-! ### C2 -/

/-- C2: for every token made only of decimal digits, one or more, whose value
fits the 32 bit index type, `torrent_spec` returns 1 with `by_hash = 0` and
`u.num` the decimal value of the token, and it makes no call of the metainfo
loader `mi_load`, whatever the loader would answer (whatever files exist). -/
theorem C2_torrent_spec_digits (mi_load : List Nat → Option (List Nat))
    (mi_info_hash : List Nat → List Nat) (tp : ipc_torrent) (ds : List Nat)
    (hne : ds ≠ []) (hd : ∀ d ∈ ds, d < 10) (hrange : decimal_value ds < 2 ^ 32) :
    torrent_spec mi_load mi_info_hash (ds.map (· + 48)) tp =
      { ret := 1,
        tp := { by_hash := 0, num := decimal_value ds, hash := tp.hash },
        loads := [], reported := none } := by
  have hne2 : ds.map (· + 48) ≠ [] := by simpa using hne
  have hscan := scan_number_of_shape [] [] (ds.map (· + 48)) [] (by simp) (Or.inl rfl) hne2
    (isdigit_map ds hd) (by simp)
  simp only [List.nil_append, List.append_nil, List.length_nil, Nat.zero_add,
    digits_value_map ds hd] at hscan
  have hmax : ¬ (decimal_value ds > ULONG_MAX) := by
    simp only [ULONG_MAX]; omega
  have hstr : strtoul (ds.map (· + 48)) = (decimal_value ds, (ds.map (· + 48)).length) := by
    simp [strtoul, hscan, hmax]
  have hend : char_at (ds.map (· + 48)) (ds.map (· + 48)).length = 0 := by
    have := char_at_length (ds.map (· + 48)) []
    rw [List.append_nil] at this
    rw [this]
    rfl
  simp only [torrent_spec, hstr, hend, if_true, Nat.mod_eq_of_lt hrange]

/-- C2 at the token `"12"`, with a loader that would find a file of any name. -/
theorem C2_torrent_spec_digits_witness :
    torrent_spec (fun path => some path) id [49, 50] { by_hash := 5, num := 9, hash := [1] } =
      { ret := 1, tp := { by_hash := 0, num := 12, hash := [1] },
        loads := [], reported := none } :=
  C2_torrent_spec_digits (fun path => some path) id { by_hash := 5, num := 9, hash := [1] }
    [1, 2] (by decide) (by decide) (by decide)

/-! ### C3 -/

/-- C3, as stated, fails: the tokens `"-1"` and `" 7"` carry a sign or a leading
blank, and the empty token has no digit, yet `torrent_spec` makes each of them
an index reference (return 1, `by_hash = 0`) and never calls the loader. -/
theorem C3_counterexample :
    torrent_spec (fun _ => none) id (ascii "-1") { by_hash := 1, num := 0, hash := [] } =
      { ret := 1, tp := { by_hash := 0, num := 4294967295, hash := [] },
        loads := [], reported := none } ∧
    torrent_spec (fun _ => none) id (ascii " 7") { by_hash := 1, num := 0, hash := [] } =
      { ret := 1, tp := { by_hash := 0, num := 7, hash := [] },
        loads := [], reported := none } ∧
    torrent_spec (fun _ => none) id (ascii "") { by_hash := 1, num := 9, hash := [] } =
      { ret := 1, tp := { by_hash := 0, num := 0, hash := [] },
        loads := [], reported := none } := by
  decide

/-- A token that `strtoul` does not consume whole goes to the loader. -/
theorem torrent_spec_of_not_shape (mi_load : List Nat → Option (List Nat))
    (mi_info_hash : List Nat → List Nat) (tp : ipc_torrent) (tok : List Nat)
    (hne : tok ≠ []) (hnul : 0 ∉ tok) (hshape : ¬ whole_number_shape tok) :
    (torrent_spec mi_load mi_info_hash tok tp).loads = [tok] ∧
    (mi_load tok = none →
      (torrent_spec mi_load mi_info_hash tok tp).ret = 0 ∧
      (torrent_spec mi_load mi_info_hash tok tp).reported = some tok ∧
      (torrent_spec mi_load mi_info_hash tok tp).tp.by_hash = tp.by_hash) ∧
    (∀ p, mi_load tok = some p →
      (torrent_spec mi_load mi_info_hash tok tp).ret = 1 ∧
      (torrent_spec mi_load mi_info_hash tok tp).tp.by_hash = 1 ∧
      (torrent_spec mi_load mi_info_hash tok tp).tp.hash = mi_info_hash p ∧
      (torrent_spec mi_load mi_info_hash tok tp).reported = none) := by
  have hend : char_at tok (strtoul tok).2 ≠ 0 := by
    obtain ⟨ws, sg, ds, rest, hsplit, hws, hsg, hds, hrest, hstop, hnosign⟩ :=
      scan_number_shape tok
    by_cases hdn : ds = []
    · subst hdn
      have hscan := scan_number_none_of_no_digit ws sg rest hws hsg hrest
        (by simpa using hstop) (by simpa using hnosign)
      have htok : tok = ws ++ sg ++ rest := by simpa using hsplit
      have hscan2 : scan_number tok = none := by rw [htok]; exact hscan
      have hstr : strtoul tok = (0, 0) := by
        simp only [strtoul, hscan2]
      rw [hstr]
      exact char_at_ne_zero tok hnul hne
    · have hscan := scan_number_of_shape ws sg ds rest hws hsg hdn hds hrest
      rw [← hsplit] at hscan
      have hcons : (strtoul tok).2 = (ws ++ sg ++ ds).length := by
        simp only [strtoul, hscan, List.length_append]
      have hrne : rest ≠ [] := by
        intro hr
        apply hshape
        exact ⟨ws, sg, ds, by simpa [hr] using hsplit, hws, hsg, hdn, hds⟩
      have hrnul : 0 ∉ rest := by
        intro h
        apply hnul
        rw [hsplit]
        exact List.mem_append_right _ h
      rw [hcons]
      conv_lhs => rw [hsplit]
      rw [char_at_length]
      exact char_at_ne_zero rest hrnul hrne
  unfold torrent_spec
  simp only [hend, if_false]
  cases hload : mi_load tok with
  | none => simp
  | some p => simp

/-- A token that `strtoul` consumes whole is an index reference. -/
theorem torrent_spec_of_shape (mi_load : List Nat → Option (List Nat))
    (mi_info_hash : List Nat → List Nat) (tp : ipc_torrent) (tok : List Nat)
    (hshape : whole_number_shape tok) :
    (torrent_spec mi_load mi_info_hash tok tp).ret = 1 ∧
    (torrent_spec mi_load mi_info_hash tok tp).tp.by_hash = 0 ∧
    (torrent_spec mi_load mi_info_hash tok tp).loads = [] := by
  obtain ⟨ws, sg, ds, hsplit, hws, hsg, hdn, hds⟩ := hshape
  have hscan := scan_number_of_shape ws sg ds [] hws hsg hdn hds (by simp)
  rw [List.append_nil, ← hsplit] at hscan
  have hcons : (strtoul tok).2 = tok.length := by
    simp only [strtoul, hscan]
    rw [hsplit]
    simp only [List.length_append]
  have hend : char_at tok (strtoul tok).2 = 0 := by
    rw [hcons]
    have := char_at_length tok []
    rw [List.append_nil] at this
    rw [this]
    rfl
  unfold torrent_spec
  simp only [hend, if_true, and_self]

/-- C3, amended: for every non-empty token that is not, in its entirety,
optional white space, an optional sign and one or more decimal digits,
`torrent_spec` produces no index reference: it passes the token to the loader
as a path, exactly once; when the load succeeds it returns 1 with `by_hash = 1`
and the info hash of the document, and when the load fails it returns 0 and
reports the token. A token of that shape, with or without a sign or leading
white space, is an index reference and causes no load. -/
theorem C3_torrent_spec_path (mi_load : List Nat → Option (List Nat))
    (mi_info_hash : List Nat → List Nat) (tp : ipc_torrent) (tok : List Nat)
    (hne : tok ≠ []) (hnul : 0 ∉ tok) :
    (¬ whole_number_shape tok →
      (torrent_spec mi_load mi_info_hash tok tp).loads = [tok] ∧
      (mi_load tok = none →
        (torrent_spec mi_load mi_info_hash tok tp).ret = 0 ∧
        (torrent_spec mi_load mi_info_hash tok tp).reported = some tok ∧
        (torrent_spec mi_load mi_info_hash tok tp).tp.by_hash = tp.by_hash) ∧
      (∀ p, mi_load tok = some p →
        (torrent_spec mi_load mi_info_hash tok tp).ret = 1 ∧
        (torrent_spec mi_load mi_info_hash tok tp).tp.by_hash = 1 ∧
        (torrent_spec mi_load mi_info_hash tok tp).tp.hash = mi_info_hash p ∧
        (torrent_spec mi_load mi_info_hash tok tp).reported = none)) ∧
    (whole_number_shape tok →
      (torrent_spec mi_load mi_info_hash tok tp).ret = 1 ∧
      (torrent_spec mi_load mi_info_hash tok tp).tp.by_hash = 0 ∧
      (torrent_spec mi_load mi_info_hash tok tp).loads = []) :=
  ⟨fun hshape => torrent_spec_of_not_shape mi_load mi_info_hash tp tok hne hnul hshape,
   fun hshape => torrent_spec_of_shape mi_load mi_info_hash tp tok hshape⟩

theorem not_whole_number_shape_7a : ¬ whole_number_shape (ascii "7a") := by
  rintro ⟨ws, sg, ds, hsplit, hws, hsg, hne, hds⟩
  obtain ⟨d, ds', hrev⟩ : ∃ d ds', ds = ds' ++ [d] := by
    rcases List.eq_nil_or_concat ds with h | ⟨ds', d, h⟩
    · exact absurd h hne
    · exact ⟨d, ds', by simpa using h⟩
  have hd : isdigit d = true := hds d (by simp [hrev])
  have hlast : (ascii "7a").getLast? = some d := by
    rw [hsplit, hrev]; simp
  have h97 : (ascii "7a").getLast? = some 97 := by decide
  rw [h97] at hlast
  simp only [Option.some.injEq] at hlast
  subst hlast
  exact absurd hd (by decide)

/-- C3, amended, at the token `"7a"`: it is not a whole number, the load fails
and the token is reported. -/
theorem C3_torrent_spec_path_witness :
    (torrent_spec (fun _ => none) id (ascii "7a") { by_hash := 1, num := 0, hash := [] }).loads
      = [ascii "7a"] ∧
    (torrent_spec (fun _ => none) id (ascii "7a") { by_hash := 1, num := 0, hash := [] }).ret = 0 ∧
    (torrent_spec (fun _ => none) id (ascii "7a") { by_hash := 1, num := 0, hash := [] }).reported
      = some (ascii "7a") :=
  have h := (C3_torrent_spec_path (fun _ => none) id { by_hash := 1, num := 0, hash := [] }
    (ascii "7a") (by decide) (by decide)).1 not_whole_number_shape_7a
  ⟨h.1, (h.2.1 rfl).1, (h.2.1 rfl).2.1⟩

/-! ### The rate parser -/

theorem unit_shift_cases (u : List Nat) (sh : Nat) (hu : unit_shift u = some sh) :
    (u = [] ∧ sh = 10) ∨
    ∃ c, u = [c] ∧ ((c = 103 ∧ sh = 30) ∨ (c = 71 ∧ sh = 30) ∨ (c = 109 ∧ sh = 20) ∨
      (c = 77 ∧ sh = 20) ∨ (c = 107 ∧ sh = 10) ∨ (c = 75 ∧ sh = 10) ∨
      (c = 98 ∧ sh = 0) ∨ (c = 66 ∧ sh = 0)) := by
  unfold unit_shift at hu
  split_ifs at hu with h1 h2 h3 h4
  · cases hu; rcases h1 with rfl | rfl <;> exact Or.inr ⟨_, rfl, by simp⟩
  · cases hu; rcases h2 with rfl | rfl <;> exact Or.inr ⟨_, rfl, by simp⟩
  · cases hu
    rcases h3 with rfl | rfl | rfl
    · exact Or.inl ⟨rfl, rfl⟩
    · exact Or.inr ⟨_, rfl, by simp⟩
    · exact Or.inr ⟨_, rfl, by simp⟩
  · cases hu; rcases h4 with rfl | rfl <;> exact Or.inr ⟨_, rfl, by simp⟩

/-- What `parse_rate` does once `strtol` has consumed the non-empty prefix `pre`
of the string `pre ++ rest`. -/
theorem parse_rate_after_scan (pre rest : List Nat) (r : subject)
    (hscan : scan_number (pre ++ rest) = some r) (hcons : r.consumed = pre.length)
    (hpre : pre ≠ []) :
    parse_rate (pre ++ rest) =
      if char_at rest 0 ≠ 0 ∧ char_at rest 1 ≠ 0 then none
      else if char_at rest 0 = 103 ∨ char_at rest 0 = 71 then
        some (((strtol (pre ++ rest)).1 % 2 ^ 32).toNat * 2 ^ 30 % 2 ^ 32)
      else if char_at rest 0 = 109 ∨ char_at rest 0 = 77 then
        some (((strtol (pre ++ rest)).1 % 2 ^ 32).toNat * 2 ^ 20 % 2 ^ 32)
      else if char_at rest 0 = 0 ∨ char_at rest 0 = 107 ∨ char_at rest 0 = 75 then
        some (((strtol (pre ++ rest)).1 % 2 ^ 32).toNat * 2 ^ 10 % 2 ^ 32)
      else if char_at rest 0 = 98 ∨ char_at rest 0 = 66 then
        some ((strtol (pre ++ rest)).1 % 2 ^ 32).toNat
      else none := by
  have hend : (strtol (pre ++ rest)).2 = pre.length := by
    simp only [strtol, hscan, hcons]
  have hlen : pre.length ≠ 0 := by
    intro h; exact hpre (List.length_eq_zero.mp h)
  have h0 : char_at (pre ++ rest) pre.length = char_at rest 0 := char_at_length pre rest
  have h1 : char_at (pre ++ rest) (pre.length + 1) = char_at rest 1 := char_at_append pre rest 1
  unfold parse_rate
  simp only [hend, hlen, if_false, h0, h1]

theorem unit_not_digit (u : List Nat) (hu : (unit_shift u).isSome = true) :
    ∀ c, u.head? = some c → isdigit c = false := by
  obtain ⟨sh, hsh⟩ := Option.isSome_iff_exists.mp hu
  intro c hc
  rcases unit_shift_cases u sh hsh with ⟨rfl, -⟩ | ⟨d, rfl, hd⟩
  · simp at hc
  · simp only [List.head?_cons, Option.some.injEq] at hc
    subst hc
    rcases hd with h | h | h | h | h | h | h | h <;> (rw [h.1]; decide)

/-- On a number followed by a unit of shift `sh`, `parse_rate` returns the
value `strtol` delivers, reduced to 32 bits and shifted left by `sh` in 32 bits. -/
theorem parse_rate_of_shape (ws sg ds u : List Nat) (sh : Nat)
    (hws : ∀ c ∈ ws, isspace c = true)
    (hsg : sg = [] ∨ sg = [43] ∨ sg = [45])
    (hne : ds ≠ []) (hds : ∀ c ∈ ds, isdigit c = true)
    (hu : unit_shift u = some sh) :
    parse_rate (ws ++ sg ++ ds ++ u) =
      some (((strtol (ws ++ sg ++ ds ++ u)).1 % 2 ^ 32).toNat * 2 ^ sh % 2 ^ 32) := by
  have hscan := scan_number_of_shape ws sg ds u hws hsg hne hds
    (unit_not_digit u (by simp [hu]))
  have hpre : ws ++ sg ++ ds ≠ [] := by simp [hne]
  rw [parse_rate_after_scan (ws ++ sg ++ ds) u _ hscan (by simp only [List.length_append]) hpre]
  generalize (strtol (ws ++ sg ++ ds ++ u)).1 = v
  have hv0 : 0 ≤ v % 2 ^ 32 := Int.emod_nonneg _ (by norm_num)
  have hv1 : v % 2 ^ 32 < 2 ^ 32 := Int.emod_lt_of_pos _ (by norm_num)
  have hout : (v % 2 ^ 32).toNat < 2 ^ 32 := by omega
  rcases unit_shift_cases u sh hu with ⟨rfl, rfl⟩ | ⟨c, rfl, hc⟩
  · simp [char_at]
  · rcases hc with h | h | h | h | h | h | h | h <;>
      (obtain ⟨rfl, rfl⟩ := h; simp [char_at] <;> omega)

/-! ### C4 -/

/-- C4, as stated, fails at `"5g"`: `parse_rate` returns 1073741824, which is
not 5 * 2^30 = 5368709120. -/
theorem C4_counterexample :
    parse_rate (ascii "5g") = some 1073741824 ∧
    parse_rate (ascii "5g") ≠ some (5 * 2 ^ 30) ∧ 5 * 2 ^ 30 = 5368709120 := by
  decide

/-- C4, amended: `parse_rate` returns 10 * 2^10 = 10240 for `"10"`,
10 * 2^20 = 10485760 for `"10M"`, 7 for `"7b"`, and for `"5g"` the 32 bit
value (5 * 2^30) mod 2^32 = 1073741824. -/
theorem C4_parse_rate_examples :
    parse_rate (ascii "10") = some (10 * 2 ^ 10) ∧
    parse_rate (ascii "10") = some 10240 ∧
    parse_rate (ascii "10M") = some (10 * 2 ^ 20) ∧
    parse_rate (ascii "10M") = some 10485760 ∧
    parse_rate (ascii "5g") = some (5 * 2 ^ 30 % 2 ^ 32) ∧
    parse_rate (ascii "5g") = some 1073741824 ∧
    parse_rate (ascii "7b") = some 7 := by
  decide

/-! ### C5 -/

/-- C5, as stated, fails: `"-5"` and `" 5"` have no digit at the start, yet
`parse_rate` accepts them. -/
theorem C5_counterexample :
    (ascii "-5").head? = some 45 ∧ isdigit 45 = false ∧
    parse_rate (ascii "-5") = some 4294962176 ∧
    (ascii " 5").head? = some 32 ∧ isdigit 32 = false ∧
    parse_rate (ascii " 5") = some 5120 := by
  decide

/-- C5, amended: for every input string, `parse_rate` fails with the usage
error exactly when the string is not a number as `strtol` reads one (optional
white space, an optional sign, one or more digits) followed by at most one of
the unit characters g, G, m, M, k, K, b, B: it fails when `strtol` finds no
digit, when more than one character follows the number, and when the single
character after the number is no unit; every string of digits followed by at
most one unit character is accepted; `"10x"`, `"abc"`, `"10kk"` fail. -/
theorem C5_parse_rate_fails_iff (s : List Nat) (hnul : 0 ∉ s) :
    (parse_rate s = none ↔ ¬ rate_shape s) ∧
    parse_rate (ascii "10x") = none ∧ parse_rate (ascii "abc") = none ∧
    parse_rate (ascii "10kk") = none := by
  refine ⟨?_, by decide, by decide, by decide⟩
  constructor
  · rintro hnone ⟨ws, sg, ds, u, rfl, hws, hsg, hne, hds, hu⟩
    obtain ⟨sh, hsh⟩ := Option.isSome_iff_exists.mp hu
    rw [parse_rate_of_shape ws sg ds u sh hws hsg hne hds hsh] at hnone
    cases hnone
  · intro hshape
    obtain ⟨ws, sg, ds, rest, hsplit, hws, hsg, hds, hrest, hstop, hnosign⟩ :=
      scan_number_shape s
    by_cases hdn : ds = []
    · subst hdn
      have hscan := scan_number_none_of_no_digit ws sg rest hws hsg hrest
        (by simpa using hstop) (by simpa using hnosign)
      have hs : s = ws ++ sg ++ rest := by simpa using hsplit
      have hscan2 : scan_number s = none := by rw [hs]; exact hscan
      simp only [parse_rate, strtol, hscan2, if_true]
    · have hscan := scan_number_of_shape ws sg ds rest hws hsg hdn hds hrest
      have hpre : ws ++ sg ++ ds ≠ [] := by simp [hdn]
      have hrnul : 0 ∉ rest := by
        intro h
        apply hnul
        rw [hsplit]
        exact List.mem_append_right _ h
      by_contra hsome
      apply hshape
      refine ⟨ws, sg, ds, rest, hsplit, hws, hsg, hdn, hds, ?_⟩
      rw [hsplit, parse_rate_after_scan (ws ++ sg ++ ds) rest _ hscan
        (by simp only [List.length_append]) hpre] at hsome
      cases rest with
      | nil => decide
      | cons c cs =>
        have hc : c ≠ 0 := fun h => hrnul (by simp [h])
        cases cs with
        | nil =>
          simp only [char_at, List.getD_cons_zero, List.getD_cons_succ, List.getD_nil] at hsome
          simp only [unit_shift, List.cons.injEq, and_true]
          split_ifs at hsome <;> simp_all
        | cons c' cs' =>
          have hc' : c' ≠ 0 := fun h => hrnul (by simp [h])
          simp [char_at, hc, hc'] at hsome

/-- C5, amended, at `"10kk"`: it has not the accepted shape and fails. -/
theorem C5_parse_rate_fails_iff_witness :
    (parse_rate (ascii "10kk") = none ↔ ¬ rate_shape (ascii "10kk")) ∧
    parse_rate (ascii "10x") = none ∧ parse_rate (ascii "abc") = none ∧
    parse_rate (ascii "10kk") = none :=
  C5_parse_rate_fails_iff (ascii "10kk") (by decide)

/-! ### C6 -/

theorem strtol_of_shape (ws sg ds u : List Nat) (hws : ∀ c ∈ ws, isspace c = true)
    (hsg : sg = [] ∨ sg = [43] ∨ sg = [45]) (hne : ds ≠ [])
    (hds : ∀ c ∈ ds, isdigit c = true) (hu : (unit_shift u).isSome = true)
    (hlo : LONG_MIN ≤ signed_value sg (digits_value ds))
    (hhi : signed_value sg (digits_value ds) ≤ LONG_MAX) :
    (strtol (ws ++ sg ++ ds ++ u)).1 = signed_value sg (digits_value ds) := by
  have hscan := scan_number_of_shape ws sg ds u hws hsg hne hds (unit_not_digit u hu)
  simp only [strtol, hscan]
  by_cases hneg : sg = [45]
  · simp only [signed_value, hneg, if_true, LONG_MIN] at hlo ⊢
    have hnot : ¬ ((digits_value ds : Int) > 2 ^ 63) := by omega
    simp [hnot]
    intro h
    omega
  · simp only [signed_value, hneg, if_false] at hhi ⊢
    have hnot : ¬ ((digits_value ds : Int) > LONG_MAX) := by omega
    simp [hnot]

theorem shift_wrap (n : Int) (sh : Nat)
    (hsh : sh = 0 ∨ sh = 10 ∨ sh = 20 ∨ sh = 30) :
    (n % 2 ^ 32).toNat * 2 ^ sh % 2 ^ 32 = (n * 2 ^ sh % 2 ^ 32).toNat := by
  rcases hsh with rfl | rfl | rfl | rfl
  · norm_num; omega
  · norm_num; omega
  · norm_num; omega
  · norm_num; omega

theorem unit_shift_values (u : List Nat) (sh : Nat) (hu : unit_shift u = some sh) :
    sh = 0 ∨ sh = 10 ∨ sh = 20 ∨ sh = 30 := by
  rcases unit_shift_cases u sh hu with ⟨-, h⟩ | ⟨c, -, hc⟩
  · omega
  · rcases hc with h | h | h | h | h | h | h | h <;> omega

/-- C6, as stated, fails at `"-5k"`: it is accepted, its digit denotes 5 and
its unit selects the shift 10, yet `parse_rate` returns 4294962176, which is
(-5 * 2^10) mod 2^32 and not (5 * 2^10) mod 2^32 = 5120. -/
theorem C6_counterexample :
    parse_rate (ascii "-5k") = some 4294962176 ∧
    ascii "-5k" = [45] ++ [5].map (· + 48) ++ [107] ∧
    decimal_value [5] = 5 ∧ unit_shift [107] = some 10 ∧
    parse_rate (ascii "-5k") ≠ some (5 * 2 ^ 10 % 2 ^ 32) ∧
    (4294962176 : Int) = (-5 * 2 ^ 10) % 2 ^ 32 := by
  decide

/-- C6, amended: for every accepted input (optional white space, an optional
sign, digits denoting `v`, and a unit or none selecting the shift `sh`) whose
signed value `n`, which is `-v` after a `'-'` and `v` otherwise, lies within the
range of `strtol`, `parse_rate` returns exactly `(n * 2 ^ sh) mod 2 ^ 32`; for
an input without a `'-'` that is `(v * 2 ^ sh) mod 2 ^ 32`. The result wraps in
the 32 bit unsigned type; `"4g"` yields 0. -/
theorem C6_parse_rate_signed_wraps (ws sg ds u : List Nat) (sh : Nat)
    (hws : ∀ c ∈ ws, isspace c = true) (hsg : sg = [] ∨ sg = [43] ∨ sg = [45])
    (hne : ds ≠ []) (hd : ∀ d ∈ ds, d < 10)
    (hlo : LONG_MIN ≤ signed_value sg (decimal_value ds))
    (hhi : signed_value sg (decimal_value ds) ≤ LONG_MAX)
    (hu : unit_shift u = some sh) :
    parse_rate (ws ++ sg ++ ds.map (· + 48) ++ u)
      = some (signed_value sg (decimal_value ds) * 2 ^ sh % 2 ^ 32).toNat ∧
    (sg ≠ [45] →
      parse_rate (ws ++ sg ++ ds.map (· + 48) ++ u)
        = some (decimal_value ds * 2 ^ sh % 2 ^ 32)) ∧
    parse_rate (ascii "4g") = some 0 := by
  have hne2 : ds.map (· + 48) ≠ [] := by simpa using hne
  have hshape := parse_rate_of_shape ws sg (ds.map (· + 48)) u sh hws hsg hne2
    (isdigit_map ds hd) hu
  have hval := strtol_of_shape ws sg (ds.map (· + 48)) u hws hsg hne2 (isdigit_map ds hd)
    (by simp [hu]) (by rw [digits_value_map ds hd]; exact hlo)
    (by rw [digits_value_map ds hd]; exact hhi)
  rw [digits_value_map ds hd] at hval
  have hmain : parse_rate (ws ++ sg ++ ds.map (· + 48) ++ u)
      = some (signed_value sg (decimal_value ds) * 2 ^ sh % 2 ^ 32).toNat := by
    rw [hshape, hval, shift_wrap _ sh (unit_shift_values u sh hu)]
  refine ⟨hmain, ?_, by decide⟩
  intro hpos
  rw [hmain]
  simp only [signed_value, hpos, if_false]
  congr 1
  have : ((decimal_value ds : Int) * 2 ^ sh % 2 ^ 32)
      = ((decimal_value ds * 2 ^ sh % 2 ^ 32 : Nat) : Int) := by
    push_cast
    rfl
  rw [this, Int.toNat_natCast]

/-- C6, amended, at `" -5k"` (a blank, a sign, the digit 5, the unit k): the
result is (-5 * 2^10) mod 2^32 = 4294962176. -/
theorem C6_parse_rate_signed_wraps_witness :
    parse_rate ([32] ++ [45] ++ [5].map (· + 48) ++ [107])
      = some (signed_value [45] (decimal_value [5]) * 2 ^ 10 % 2 ^ 32).toNat ∧
    (signed_value [45] (decimal_value [5]) * 2 ^ 10 % 2 ^ 32).toNat = 4294962176 :=
  ⟨(C6_parse_rate_signed_wraps [32] [45] [5] [107] 10 (by decide) (by decide) (by decide)
      (by decide) (by decide) (by decide) (by decide)).1, by decide⟩

/-! ### The stat aggregate -/

theorem stat_cb_skip (cb : callback) (cba : cbarg) (h : contributes cb = false) :
    stat_cb cb.obji cb.objerr cb.res cba = { cba := cba, out := [], exit := false } := by
  have hc : cb.objerr ≠ IPC_OK ∨ (cb.res .IPC_TVAL_STATE).num = IPC_TSTATE_INACTIVE := by
    simp only [contributes, Bool.and_eq_false_iff, decide_eq_false_iff_not, ne_eq,
      not_not] at h
    exact h
  simp only [stat_cb, hc, if_true]

theorem stat_cb_contributes (cb : callback) (cba : cbarg) (h : contributes cb = true) :
    (stat_cb cb.obji cb.objerr cb.res cba).cba.tot.content_got
      = add_i64 cba.tot.content_got (content_got_of cb) ∧
    (stat_cb cb.obji cb.objerr cb.res cba).cba.individual = cba.individual ∧
    (stat_cb cb.obji cb.objerr cb.res cba).cba.names = cba.names ∧
    (cba.individual = 0 ∨ tstate_char (to_tstate (cb.res .IPC_TVAL_STATE).num) ≠ none →
      (stat_cb cb.obji cb.objerr cb.res cba).exit = false) := by
  have hc : ¬ (cb.objerr ≠ IPC_OK ∨ (cb.res .IPC_TVAL_STATE).num = IPC_TSTATE_INACTIVE) := by
    simp only [contributes, Bool.and_eq_true, decide_eq_true_eq, ne_eq] at h
    intro hor
    rcases hor with h1 | h1
    · exact h1 h.1
    · exact h.2 h1
  simp only [stat_cb, hc, if_false]
  by_cases hind : cba.individual = 0
  · simp [hind, content_got_of]
  · cases hts : tstate_char (to_tstate (cb.res .IPC_TVAL_STATE).num) with
    | none => simp [hind, content_got_of]
    | some c => simp [hind, content_got_of]

theorem add_i64_exact (a b : Int) (hlo : -(2 ^ 63) ≤ a + b) (hhi : a + b < 2 ^ 63) :
    add_i64 a b = a + b := by
  unfold add_i64
  omega

theorem run_callbacks_content_got (cba : cbarg) (fired : List callback)
    (hstates : cba.individual = 0 ∨
      ∀ cb ∈ fired, contributes cb = true →
        tstate_char (to_tstate (cb.res .IPC_TVAL_STATE).num) ≠ none)
    (hno : no_overflow64 cba.tot.content_got ((fired.filter contributes).map content_got_of)) :
    (run_callbacks cba fired).exit = false ∧
    (run_callbacks cba fired).cba.tot.content_got
      = cba.tot.content_got + ((fired.filter contributes).map content_got_of).sum := by
  induction fired generalizing cba with
  | nil => simp [run_callbacks]
  | cons cb rest ih =>
    by_cases hc : contributes cb = true
    · obtain ⟨hgot, hind, -, hexit⟩ := stat_cb_contributes cb cba hc
      have hex : (stat_cb cb.obji cb.objerr cb.res cba).exit = false := by
        apply hexit
        rcases hstates with h | h
        · exact Or.inl h
        · exact Or.inr (h cb (List.mem_cons_self _ _) hc)
      have hfil : (cb :: rest).filter contributes = cb :: rest.filter contributes :=
        List.filter_cons_of_pos hc
      rw [hfil, List.map_cons] at hno
      have h1 := hno 1
      simp only [List.take_succ_cons, List.take_zero, List.sum_cons, List.sum_nil,
        add_zero] at h1
      have hsum : (stat_cb cb.obji cb.objerr cb.res cba).cba.tot.content_got
          = cba.tot.content_got + content_got_of cb := by
        rw [hgot]; exact add_i64_exact _ _ h1.1 h1.2
      have hno2 : no_overflow64 (stat_cb cb.obji cb.objerr cb.res cba).cba.tot.content_got
          ((rest.filter contributes).map content_got_of) := by
        intro k
        have hk := hno (k + 1)
        simp only [List.take_succ_cons, List.sum_cons] at hk
        rw [hsum]
        omega
      have hst2 : (stat_cb cb.obji cb.objerr cb.res cba).cba.individual = 0 ∨
          ∀ c ∈ rest, contributes c = true →
            tstate_char (to_tstate (c.res .IPC_TVAL_STATE).num) ≠ none := by
        rcases hstates with h | h
        · exact Or.inl (hind.trans h)
        · exact Or.inr (fun c hcm => h c (List.mem_cons_of_mem _ hcm))
      obtain ⟨ihe, ihs⟩ := ih _ hst2 hno2
      simp only [run_callbacks, hex, Bool.false_eq_true, if_false, ihe, ihs, hsum, hfil,
        List.map_cons, List.sum_cons, true_and]
      omega
    · have hcf : contributes cb = false := by simpa using hc
      have hskip := stat_cb_skip cb cba hcf
      have hfil : (cb :: rest).filter contributes = rest.filter contributes :=
        List.filter_cons_of_neg hc
      rw [hfil] at hno
      have hst2 : cba.individual = 0 ∨
          ∀ c ∈ rest, contributes c = true →
            tstate_char (to_tstate (c.res .IPC_TVAL_STATE).num) ≠ none := by
        rcases hstates with h | h
        · exact Or.inl h
        · exact Or.inr (fun c hcm => h c (List.mem_cons_of_mem _ hcm))
      obtain ⟨ihe, ihs⟩ := ih cba hst2 hno
      simp only [run_callbacks, hskip, Bool.false_eq_true, if_false, ihe, ihs, hfil, true_and]

theorem stat_cycle_cba (s : stat_state) (fired : List callback) (err : Int) :
    (stat_cycle s fired err).state.cba =
      (run_callbacks { s.cba with tot := { btstat_zero with state := IPC_TSTATE_INACTIVE } }
        fired).cba := by
  unfold stat_cycle
  simp only
  split_ifs <;> rfl

theorem stat_cycle_ok (s : stat_state) (fired : List callback)
    (hexit : (run_callbacks
      { s.cba with tot := { btstat_zero with state := IPC_TSTATE_INACTIVE } } fired).exit = false) :
    (stat_cycle s fired IPC_OK).exit = false ∧
    (stat_cycle s fired IPC_OK).out.getLast? =
      some (stat_event.total_line (decide (s.individual ≠ 0))
        (stat_cycle s fired IPC_OK).state.cba.tot) := by
  rw [stat_cycle_cba]
  unfold stat_cycle
  simp only [hexit, Bool.false_eq_true, if_false, ne_eq, not_true_eq_false]
  simp

theorem sum_take_bounds (vals : List Int) (h : ∀ v ∈ vals, 0 ≤ v) (k : Nat) :
    0 ≤ (vals.take k).sum ∧ (vals.take k).sum ≤ vals.sum := by
  induction vals generalizing k with
  | nil => simp
  | cons v rest ih =>
    have hv : 0 ≤ v := h v (List.mem_cons_self _ _)
    have hrest : ∀ x ∈ rest, 0 ≤ x := fun x hx => h x (List.mem_cons_of_mem _ hx)
    cases k with
    | zero =>
      have := ih hrest 0
      simp only [List.take_zero, List.sum_nil, List.sum_cons] at this ⊢
      omega
    | succ k =>
      have := ih hrest k
      simp only [List.take_succ_cons, List.sum_cons]
      omega

/-- Byte counts are not negative; then there is no overflow as soon as the
total is a `long long`. -/
theorem no_overflow64_of_nonneg (vals : List Int) (h : ∀ v ∈ vals, 0 ≤ v)
    (hs : vals.sum < 2 ^ 63) : no_overflow64 0 vals := by
  intro k
  have := sum_take_bounds vals h k
  omega

/-! ### C7 -/

/-- C7: in every poll cycle, for every sequence of callbacks the query fires,
the `content_got` of the aggregate after the cycle is exactly the integer sum
of the content-got values of the contributing callbacks (`objerr` is OK and the
state is not inactive), provided no partial sum overflows 64 bits; when the
query succeeds the cycle ends by printing the line of that aggregate. That all
the callbacks fire is the hypothesis `hstates`: in individual mode a
contributing callback whose state, converted to the 32 bit `enum ipc_tstate`,
is none that `tstate_char` knows would leave the process inside the callback;
in aggregate mode every state is admitted. A callback that does not contribute
leaves the callback argument, and so every field of the aggregate, unchanged
and prints nothing. The cycle resets the aggregate, so what earlier cycles left
in it has no influence. -/
theorem C7_stat_content_got_sum (s : stat_state) (fired : List callback) (err : Int)
    (hstates : s.cba.individual = 0 ∨
      ∀ cb ∈ fired, contributes cb = true →
        tstate_char (to_tstate (cb.res .IPC_TVAL_STATE).num) ≠ none)
    (hno : no_overflow64 0 ((fired.filter contributes).map content_got_of)) :
    (stat_cycle s fired err).state.cba.tot.content_got
      = ((fired.filter contributes).map content_got_of).sum ∧
    (err = IPC_OK →
      (stat_cycle s fired err).exit = false ∧
      (stat_cycle s fired err).out.getLast? =
        some (stat_event.total_line (decide (s.individual ≠ 0))
          (stat_cycle s fired err).state.cba.tot)) ∧
    (∀ (cb : callback) (cba : cbarg), contributes cb = false →
      stat_cb cb.obji cb.objerr cb.res cba = { cba := cba, out := [], exit := false }) ∧
    (∀ tot : btstat,
      stat_cycle { s with cba := { s.cba with tot := tot } } fired err
        = stat_cycle s fired err) := by
  obtain ⟨hexit, hsum⟩ := run_callbacks_content_got
    { s.cba with tot := { btstat_zero with state := IPC_TSTATE_INACTIVE } } fired hstates
    (by simpa [btstat_zero] using hno)
  refine ⟨?_, ?_, fun cb cba h => stat_cb_skip cb cba h, fun tot => rfl⟩
  · rw [stat_cycle_cba]
    simpa [btstat_zero] using hsum
  · intro herr
    subst herr
    exact stat_cycle_ok s fired hexit

/-- C7 on a cycle in individual mode with four callbacks: a leeching torrent
with 5 bytes, an inactive one with 100, a failed one with 1000 and a seeding one
with 7. The aggregate, which the previous cycle left at 99, ends at 12. -/
theorem C7_stat_content_got_sum_witness :
    (stat_cycle
      { individual := 1, names := 0, header := 1,
        cba := { individual := 1, names := 0, tot := { btstat_zero with content_got := 99 } } }
      [ { obji := 0, objerr := IPC_OK, res := fun k =>
            if k = ipc_tval.IPC_TVAL_STATE then ⟨ipc_type.IPC_TYPE_NUM, IPC_TSTATE_LEECH, []⟩
            else ⟨ipc_type.IPC_TYPE_NUM, 5, []⟩ },
        { obji := 1, objerr := IPC_OK, res := fun k =>
            if k = ipc_tval.IPC_TVAL_STATE then ⟨ipc_type.IPC_TYPE_NUM, IPC_TSTATE_INACTIVE, []⟩
            else ⟨ipc_type.IPC_TYPE_NUM, 100, []⟩ },
        { obji := 2, objerr := 3, res := fun k =>
            if k = ipc_tval.IPC_TVAL_STATE then ⟨ipc_type.IPC_TYPE_NUM, IPC_TSTATE_SEED, []⟩
            else ⟨ipc_type.IPC_TYPE_NUM, 1000, []⟩ },
        { obji := 3, objerr := IPC_OK, res := fun k =>
            if k = ipc_tval.IPC_TVAL_STATE then ⟨ipc_type.IPC_TYPE_NUM, IPC_TSTATE_SEED, []⟩
            else ⟨ipc_type.IPC_TYPE_NUM, 7, []⟩ } ]
      IPC_OK).state.cba.tot.content_got = 12 :=
  (C7_stat_content_got_sum _ _ IPC_OK (Or.inr (by decide))
    (no_overflow64_of_nonneg _ (by decide) (by decide))).1

/-! ### Rounding -/

theorem round_half_even_le (q : ℚ) (z : Int) (h : q < z + 1 / 2) : round_half_even q ≤ z := by
  have hf1 : (⌊q⌋ : ℚ) ≤ q := Int.floor_le q
  have hf2 : q < ⌊q⌋ + 1 := Int.lt_floor_add_one q
  have hfz : ⌊q⌋ ≤ z := by
    have : (⌊q⌋ : ℚ) < z + 1 := by linarith
    have : ⌊q⌋ < z + 1 := by exact_mod_cast this
    omega
  unfold round_half_even
  split_ifs with h1 h2 h3
  · exact hfz
  · by_contra hcon
    have hzf : z = ⌊q⌋ := by omega
    have : (z : ℚ) = ⌊q⌋ := by exact_mod_cast hzf
    linarith
  · exact hfz
  · by_contra hcon
    have hzf : z = ⌊q⌋ := by omega
    have : (z : ℚ) = ⌊q⌋ := by exact_mod_cast hzf
    linarith

theorem le_round_half_even (q : ℚ) (z : Int) (h : (z : ℚ) - 1 / 2 < q) :
    z ≤ round_half_even q := by
  have hf1 : (⌊q⌋ : ℚ) ≤ q := Int.floor_le q
  have hf2 : q < ⌊q⌋ + 1 := Int.lt_floor_add_one q
  have hfz : z ≤ ⌊q⌋ + 1 := by
    have : (z : ℚ) < ⌊q⌋ + 1 + 1 := by linarith
    have : z < ⌊q⌋ + 1 + 1 := by exact_mod_cast this
    omega
  unfold round_half_even
  split_ifs with h1 h2 h3
  · by_contra hcon
    have hzf : z = ⌊q⌋ + 1 := by omega
    have : (z : ℚ) = ⌊q⌋ + 1 := by exact_mod_cast hzf
    linarith
  · exact hfz
  · by_contra hcon
    have hzf : z = ⌊q⌋ + 1 := by omega
    have : (z : ℚ) = ⌊q⌋ + 1 := by exact_mod_cast hzf
    linarith
  · exact hfz

theorem round_half_even_eq (q : ℚ) (z : Int) (h1 : (z : ℚ) - 1 / 2 < q) (h2 : q < z + 1 / 2) :
    round_half_even q = z :=
  le_antisymm (round_half_even_le q z h2) (le_round_half_even q z h1)

theorem round_half_even_intCast (z : Int) : round_half_even (z : ℚ) = z :=
  round_half_even_eq _ z (by linarith) (by linarith)

/-! ### binary64 -/

theorem two_zpow_pos (e : Int) : (0 : ℚ) < 2 ^ e := zpow_pos (by norm_num) e

theorem int_log_two_eq (q : ℚ) (hq : 0 < q) (k : Int) (hlo : (2 : ℚ) ^ k ≤ q)
    (hhi : q < 2 ^ (k + 1)) : Int.log 2 q = k := by
  have h1 : k ≤ Int.log 2 q := by
    apply (Int.zpow_le_iff_le_log (by norm_num : 1 < 2) hq).mp
    simpa using hlo
  have h2 : Int.log 2 q < k + 1 := by
    apply (Int.lt_zpow_iff_log_lt (by norm_num : 1 < 2) hq).mp
    simpa using hhi
  omega

/-- The value `fl q` once the binary exponent of `q` and the rounded significand
are known. -/
theorem fl_eq (q : ℚ) (e z : Int) (hlo : (2 : ℚ) ^ (e + 52) ≤ |q|)
    (hhi : |q| < 2 ^ (e + 53)) (hz : round_half_even (q / 2 ^ e) = z) :
    fl q = z * 2 ^ e := by
  have hq : 0 < |q| := lt_of_lt_of_le (two_zpow_pos _) hlo
  have hq0 : q ≠ 0 := abs_pos.mp hq
  have hlog : Int.log 2 |q| = e + 52 :=
    int_log_two_eq |q| hq (e + 52) hlo (by
      have : e + 52 + 1 = e + 53 := by ring
      rw [this]; exact hhi)
  have he : Int.log 2 |q| - 52 = e := by omega
  unfold fl
  rw [if_neg hq0, he, hz]

/-- A `double` is its own rounding: an integer significand below `2 ^ 53` in
magnitude, times a power of two. -/
theorem fl_exact (m j : Int) (hm : |m| < 2 ^ 53) : fl ((m : ℚ) * 2 ^ j) = (m : ℚ) * 2 ^ j := by
  by_cases hm0 : m = 0
  · subst hm0
    simp [fl]
  · have hq0 : (m : ℚ) * 2 ^ j ≠ 0 :=
      mul_ne_zero (by exact_mod_cast hm0) (ne_of_gt (two_zpow_pos j))
    have habs : |(m : ℚ) * 2 ^ j| = |(m : ℚ)| * 2 ^ j := by
      rw [abs_mul, abs_of_pos (two_zpow_pos j)]
    have hqpos : 0 < |(m : ℚ) * 2 ^ j| := abs_pos.mpr hq0
    have hmq : |(m : ℚ)| < 2 ^ 53 := by
      have : ((|m| : Int) : ℚ) < ((2 ^ 53 : Int) : ℚ) := by exact_mod_cast hm
      simpa [Int.cast_abs] using this
    -- the exponent is at most `j`
    have hlog : Int.log 2 |(m : ℚ) * 2 ^ j| < 53 + j := by
      apply (Int.lt_zpow_iff_log_lt (by norm_num : 1 < 2) hqpos).mp
      rw [habs]
      have : ((2 : ℕ) : ℚ) ^ (53 + j) = 2 ^ (53 : ℕ) * 2 ^ j := by
        rw [zpow_add₀ (by norm_num)]
        norm_num
      rw [this]
      exact mul_lt_mul_of_pos_right hmq (two_zpow_pos j)
    obtain ⟨d, hd⟩ : ∃ d : ℕ, j - (Int.log 2 |(m : ℚ) * 2 ^ j| - 52) = d :=
      ⟨(j - (Int.log 2 |(m : ℚ) * 2 ^ j| - 52)).toNat, by omega⟩
    have hdiv : (m : ℚ) * 2 ^ j / 2 ^ (Int.log 2 |(m : ℚ) * 2 ^ j| - 52)
        = ((m * 2 ^ d : Int) : ℚ) := by
      rw [mul_div_assoc, ← zpow_sub₀ (by norm_num : (2 : ℚ) ≠ 0), hd]
      push_cast
      rw [zpow_natCast]
    unfold fl
    rw [if_neg hq0, hdiv, round_half_even_intCast]
    push_cast
    rw [mul_assoc, ← zpow_natCast, ← zpow_add₀ (by norm_num : (2 : ℚ) ≠ 0), ← hd]
    congr 2
    ring

theorem to_double_exact (n : Int) (h : |n| < 2 ^ 53) : to_double n = n := by
  have := fl_exact n 0 h
  simpa [to_double] using this

theorem fl_div_two_pow (n : Int) (k : Nat) (h : |n| < 2 ^ 53) :
    fl ((n : ℚ) / 2 ^ k) = (n : ℚ) / 2 ^ k := by
  have := fl_exact n (-(k : Int)) h
  simpa [zpow_neg, div_eq_mul_inv] using this

/-- Conversion never takes an integer from `2 ^ 53` on below `2 ^ 53`. -/
theorem le_fl_of_le (q : ℚ) (h : 2 ^ 53 ≤ q) : 2 ^ 53 ≤ fl q := by
  have hq : 0 < q := lt_of_lt_of_le (by norm_num) h
  have hq0 : q ≠ 0 := ne_of_gt hq
  have habs : |q| = q := abs_of_pos hq
  have hlog : (53 : Int) ≤ Int.log 2 q := by
    apply (Int.zpow_le_iff_le_log (by norm_num : 1 < 2) hq).mp
    have h53 : ((2 : ℕ) : ℚ) ^ (53 : Int) = (2 : ℚ) ^ (53 : ℕ) := by norm_num
    rw [h53]; exact h
  have hself : (2 : ℚ) ^ Int.log 2 q ≤ q := by
    simpa using Int.zpow_log_le_self (by norm_num : 1 < 2) hq
  unfold fl
  rw [if_neg hq0, habs]
  set e := Int.log 2 q - 52 with he
  have hpos := two_zpow_pos e
  have hsig : (2 : ℚ) ^ (52 : Int) ≤ q / 2 ^ e := by
    rw [le_div_iff₀ hpos, ← zpow_add₀ (by norm_num : (2 : ℚ) ≠ 0)]
    have : (52 : Int) + e = Int.log 2 q := by omega
    rw [this]; exact hself
  have hround : ((2 ^ 52 : Int) : ℚ) ≤ (round_half_even (q / 2 ^ e) : ℚ) := by
    have : (2 ^ 52 : Int) ≤ round_half_even (q / 2 ^ e) := by
      apply le_round_half_even
      have h52 : ((2 ^ 52 : Int) : ℚ) = (2 : ℚ) ^ (52 : Int) := by norm_num
      rw [h52]
      linarith
    exact_mod_cast this
  have h1 : (2 : ℚ) ^ (1 : Int) ≤ 2 ^ e :=
    zpow_le_zpow_right₀ (by norm_num) (by omega)
  calc (2 : ℚ) ^ 53 = ((2 ^ 52 : Int) : ℚ) * 2 ^ (1 : Int) := by norm_num
    _ ≤ (round_half_even (q / 2 ^ e) : ℚ) * 2 ^ e :=
      mul_le_mul hround h1 (by norm_num) (le_trans (by norm_num) hround)

/-- The literal `999.995` is the `double` 8796049041742889 / 2^43. -/
theorem double_999_995_eq : double_999_995 = 8796049041742889 / 2 ^ 43 := by
  unfold double_999_995
  rw [fl_eq (999995 / 1000) (-43) 8796049041742889]
  · norm_num
  · rw [abs_of_pos (by norm_num)]; norm_num
  · rw [abs_of_pos (by norm_num)]; norm_num
  · apply round_half_even_eq <;> norm_num

theorem rate_threshold_eq : fl (double_999_995 * 2 ^ 10) = 8796049041742889 / 2 ^ 33 := by
  rw [double_999_995_eq]
  have := fl_exact 8796049041742889 (-33) (by norm_num)
  have h2 : (8796049041742889 : ℚ) / 2 ^ 43 * 2 ^ 10 = ((8796049041742889 : Int) : ℚ) * 2 ^ (-33 : Int) := by
    norm_num
  have h3 : (8796049041742889 : ℚ) / 2 ^ 33 = ((8796049041742889 : Int) : ℚ) * 2 ^ (-33 : Int) := by
    norm_num
  rw [h2, h3]
  exact this

theorem size_threshold_eq : fl (double_999_995 * 2 ^ 20) = 8796049041742889 / 2 ^ 23 := by
  rw [double_999_995_eq]
  have := fl_exact 8796049041742889 (-23) (by norm_num)
  have h2 : (8796049041742889 : ℚ) / 2 ^ 43 * 2 ^ 20 = ((8796049041742889 : Int) : ℚ) * 2 ^ (-23 : Int) := by
    norm_num
  have h3 : (8796049041742889 : ℚ) / 2 ^ 23 = ((8796049041742889 : Int) : ℚ) * 2 ^ (-23 : Int) := by
    norm_num
  rw [h2, h3]
  exact this

theorem fl_natCast (n : ℕ) (h : n < 2 ^ 53) : fl (n : ℚ) = n := by
  have := fl_exact (n : Int) 0 (by
    exact_mod_cast h)
  simpa using this

theorem to_double_natCast (n : ℕ) (h : n < 2 ^ 53) : to_double (n : Int) = n := by
  have := fl_natCast n h
  simpa [to_double] using this

theorem to_double_of_nonneg (n : Int) (h0 : 0 ≤ n) (h : n < 2 ^ 53) : to_double n = n :=
  to_double_exact n (by rw [abs_of_nonneg h0]; exact h)

theorem le_to_double (n : Int) (h : 2 ^ 53 ≤ n) : (2 : ℚ) ^ 53 ≤ to_double n := by
  apply le_fl_of_le
  exact_mod_cast h

/-! ### `printf` -/

theorem decimal_round_eq (prec : Nat) (x : ℚ) (z : ℕ)
    (h1 : (z : ℚ) - 1 / 2 < |x| * 10 ^ prec) (h2 : |x| * 10 ^ prec < z + 1 / 2) :
    decimal_round prec x = z := by
  unfold decimal_round
  rw [round_half_even_eq _ (z : Int) (by rw [Int.cast_natCast]; exact h1)
    (by rw [Int.cast_natCast]; exact h2)]
  simp

theorem decimal_round_le (prec : Nat) (x : ℚ) (z : ℕ) (h : |x| * 10 ^ prec < z + 1 / 2) :
    decimal_round prec x ≤ z := by
  unfold decimal_round
  have := round_half_even_le _ (z : Int) (by rw [Int.cast_natCast]; exact h)
  omega

theorem le_decimal_round (prec : Nat) (x : ℚ) (z : ℕ) (h : (z : ℚ) - 1 / 2 < |x| * 10 ^ prec) :
    z ≤ decimal_round prec x := by
  unfold decimal_round
  have := le_round_half_even _ (z : Int) (by rw [Int.cast_natCast]; exact h)
  omega

theorem decimal_round_eq_of_nonneg (prec : Nat) (x : ℚ) (z : ℕ) (hx : 0 ≤ x)
    (h1 : (z : ℚ) - 1 / 2 < x * 10 ^ prec) (h2 : x * 10 ^ prec < z + 1 / 2) :
    decimal_round prec x = z :=
  decimal_round_eq prec x z (by rw [abs_of_nonneg hx]; exact h1)
    (by rw [abs_of_nonneg hx]; exact h2)

theorem decimal_round_le_of_nonneg (prec : Nat) (x : ℚ) (z : ℕ) (hx : 0 ≤ x)
    (h : x * 10 ^ prec < z + 1 / 2) : decimal_round prec x ≤ z :=
  decimal_round_le prec x z (by rw [abs_of_nonneg hx]; exact h)

theorem le_decimal_round_of_nonneg (prec : Nat) (x : ℚ) (z : ℕ) (hx : 0 ≤ x)
    (h : (z : ℚ) - 1 / 2 < x * 10 ^ prec) : z ≤ decimal_round prec x :=
  le_decimal_round prec x z (by rw [abs_of_nonneg hx]; exact h)

theorem fmt_fixed_eq (width prec : Nat) (neg : Bool) (x : ℚ) (z : ℕ)
    (hz : decimal_round prec x = z) :
    fmt_fixed width prec neg x =
      List.replicate (width - ((if neg then [45] else []) ++ dec_digits (z / 10 ^ prec) ++ [46] ++
        fixed_digits prec (z % 10 ^ prec)).length) 32 ++
      ((if neg then [45] else []) ++ dec_digits (z / 10 ^ prec) ++ [46] ++
        fixed_digits prec (z % 10 ^ prec)) := by
  subst hz
  rfl

/-! ### C8 -/

theorem print_percent_0_100 : print_percent 0 100 = some (ascii "  0.0% ") := by
  have h0 : to_double 0 = 0 := by simpa using to_double_natCast 0 (by norm_num)
  have h100 : to_double 100 = 100 := by simpa using to_double_natCast 100 (by norm_num)
  have hfl0 : fl 0 = 0 := by simp [fl]
  have hfmt := fmt_fixed_eq 5 1 false 0 0 (decimal_round_eq 1 0 0 (by norm_num) (by norm_num))
  unfold print_percent
  rw [if_neg (by norm_num)]
  simp only [h0, h100, mul_zero, hfl0, zero_div, Int.floor_zero, Int.cast_zero]
  rw [decide_eq_false (by norm_num), hfmt]
  decide

theorem print_percent_50_100 : print_percent 50 100 = some (ascii " 50.0% ") := by
  have h50 : to_double 50 = 50 := by simpa using to_double_natCast 50 (by norm_num)
  have h100 : to_double 100 = 100 := by simpa using to_double_natCast 100 (by norm_num)
  have hmul : fl (1000 * 50) = 50000 := by
    have := fl_natCast 50000 (by norm_num)
    norm_num at this ⊢
    exact this
  have hdiv : fl (50000 / 100) = 500 := by
    have := fl_natCast 500 (by norm_num)
    norm_num at this ⊢
    exact this
  have hfloor : ⌊(500 : ℚ)⌋ = 500 := by
    simp
  have hten : fl (((500 : Int) : ℚ) / 10) = 50 := by
    have := fl_natCast 50 (by norm_num)
    norm_num at this ⊢
    exact this
  have hfmt := fmt_fixed_eq 5 1 false 50 500
    (decimal_round_eq 1 50 500 (by norm_num) (by norm_num))
  unfold print_percent
  rw [if_neg (by norm_num)]
  simp only [h50, h100, hmul, hdiv, hfloor, hten]
  rw [decide_eq_false (by norm_num), hfmt]
  decide

/-- C8, as stated, fails at (50, 100): `print_percent` renders 50.0%,
the value floor(1000 * 50 / 100) / 10 = 50.0, and not 5.0%. -/
theorem C8_counterexample :
    print_percent 50 100 = some (ascii " 50.0% ") ∧
    print_percent 50 100 ≠ some (ascii "  5.0% ") ∧
    (⌊(1000 * 50 / 100 : ℚ)⌋ : ℚ) / 10 = 50 := by
  refine ⟨print_percent_50_100, ?_, ?_⟩
  · rw [print_percent_50_100]
    decide
  · have : (1000 * 50 / 100 : ℚ) = ((500 : Int) : ℚ) := by norm_num
    rw [this, Int.floor_intCast]
    norm_num

/-- C8, amended: `print_percent(0, 100)` renders 0.0% and
`print_percent(50, 100)` renders 50.0%, the value floor(1000 * part / whole) / 10
shown with one decimal place (in a field of five characters, followed by `%`
and a blank). -/
theorem C8_print_percent_examples :
    print_percent 0 100 = some (ascii "  0.0% ") ∧
    print_percent 50 100 = some (ascii " 50.0% ") ∧
    (⌊(1000 * 0 / 100 : ℚ)⌋ : ℚ) / 10 = 0 ∧
    (⌊(1000 * 50 / 100 : ℚ)⌋ : ℚ) / 10 = 50 := by
  refine ⟨print_percent_0_100, print_percent_50_100, ?_, ?_⟩
  · norm_num
  · have : (1000 * 50 / 100 : ℚ) = ((500 : Int) : ℚ) := by norm_num
    rw [this, Int.floor_intCast]
    norm_num

/-! ### C9 -/

/-- Which unit `print_size` takes, for the sizes a `double` holds exactly. -/
theorem size_threshold_iff (size : Int) (h0 : 0 ≤ size) (h : size < 2 ^ 53) :
    fl (double_999_995 * 2 ^ 20) ≤ to_double size ↔ 1048570758 ≤ size := by
  rw [size_threshold_eq, to_double_of_nonneg size h0 h]
  constructor
  · intro hle
    have h1 : (1048570757 : ℚ) < size := by
      have : (1048570757 : ℚ) < 8796049041742889 / 2 ^ 23 := by norm_num
      linarith
    have h2 : (1048570757 : Int) < size := by exact_mod_cast h1
    omega
  · intro hle
    have h1 : (1048570758 : ℚ) ≤ size := by exact_mod_cast hle
    have : (8796049041742889 / 2 ^ 23 : ℚ) ≤ (1048570758 : ℚ) := by norm_num
    linarith

theorem print_size_M (size : Int) (h0 : 0 ≤ size) (h : size < 1048570758) :
    print_size size = fmt_fixed 6 2 false ((size : ℚ) / 2 ^ 20) ++ ascii "M " := by
  have h53 : size < 2 ^ 53 := by omega
  have hcond : ¬ (fl (double_999_995 * 2 ^ 20) ≤ to_double size) := by
    rw [size_threshold_iff size h0 h53]; omega
  unfold print_size
  rw [if_neg hcond, to_double_of_nonneg size h0 h53,
    fl_div_two_pow size 20 (by rw [abs_of_nonneg h0]; exact h53), decide_eq_false (by omega)]

theorem print_size_G (size : Int) (h1 : 1048570758 ≤ size) (h : size < 2 ^ 53) :
    print_size size = fmt_fixed 6 2 false ((size : ℚ) / 2 ^ 30) ++ ascii "G " := by
  have h0 : 0 ≤ size := by omega
  have hcond : fl (double_999_995 * 2 ^ 20) ≤ to_double size := by
    rw [size_threshold_iff size h0 h]; exact h1
  unfold print_size
  rw [if_pos hcond, to_double_of_nonneg size h0 h,
    fl_div_two_pow size 30 (by rw [abs_of_nonneg h0]; exact h), decide_eq_false (by omega)]

/-- C9, as stated, fails at size 2^40: `print_size` shows it in gigabytes with
the magnitude 1024.00, which is not below 1000. -/
theorem C9_counterexample :
    print_size 1099511627776 = ascii "1024.00G " ∧
    decimal_round 2 ((1099511627776 : Int) / 2 ^ 30) = 102400 := by
  have hround : decimal_round 2 (((1099511627776 : Int) : ℚ) / 2 ^ 30) = 102400 :=
    decimal_round_eq_of_nonneg 2 _ 102400 (by norm_num) (by norm_num) (by norm_num)
  refine ⟨?_, hround⟩
  rw [print_size_G 1099511627776 (by norm_num) (by norm_num),
    fmt_fixed_eq 6 2 false _ 102400 hround]
  decide

/-- C9, amended: for every non-negative size below 999.995 * 2^30 (that is, up
to 1073736455290), `print_size` scales the value to megabytes (`size / 2^20`,
for sizes below 1048570758) or to gigabytes (`size / 2^30`) and the magnitude it
displays with two decimals is below 1000 (at most 999.99);
`print_size(500000000)` uses the megabyte unit and writes `476.84M`. -/
theorem C9_print_size_below_1000 (size : Int) (h0 : 0 ≤ size) (h : size < 1073736455291) :
    (size < 1048570758 →
      print_size size = fmt_fixed 6 2 false ((size : ℚ) / 2 ^ 20) ++ ascii "M " ∧
      decimal_round 2 ((size : ℚ) / 2 ^ 20) ≤ 99999) ∧
    (1048570758 ≤ size →
      print_size size = fmt_fixed 6 2 false ((size : ℚ) / 2 ^ 30) ++ ascii "G " ∧
      decimal_round 2 ((size : ℚ) / 2 ^ 30) ≤ 99999) ∧
    print_size 500000000 = ascii "476.84M " := by
  have hq0 : (0 : ℚ) ≤ size := by exact_mod_cast h0
  refine ⟨?_, ?_, ?_⟩
  · intro hM
    refine ⟨print_size_M size h0 hM, ?_⟩
    apply decimal_round_le_of_nonneg 2 _ _ (by positivity)
    have hle : (size : ℚ) ≤ (1048570757 : ℚ) := by
      have : size ≤ 1048570757 := by omega
      exact_mod_cast this
    have : (size : ℚ) / 2 ^ 20 * 10 ^ 2 ≤ (1048570757 : ℚ) / 2 ^ 20 * 10 ^ 2 := by
      gcongr
    have h2 : (1048570757 : ℚ) / 2 ^ 20 * 10 ^ 2 < ((99999 : ℕ) : ℚ) + 1 / 2 := by
      norm_num
    linarith
  · intro hG
    refine ⟨print_size_G size hG (by omega), ?_⟩
    apply decimal_round_le_of_nonneg 2 _ _ (by positivity)
    have hle : (size : ℚ) ≤ (1073736455290 : ℚ) := by
      have : size ≤ 1073736455290 := by omega
      exact_mod_cast this
    have : (size : ℚ) / 2 ^ 30 * 10 ^ 2 ≤ (1073736455290 : ℚ) / 2 ^ 30 * 10 ^ 2 := by
      gcongr
    have h2 : (1073736455290 : ℚ) / 2 ^ 30 * 10 ^ 2 < ((99999 : ℕ) : ℚ) + 1 / 2 := by
      norm_num
    linarith
  · have hround : decimal_round 2 (((500000000 : Int) : ℚ) / 2 ^ 20) = 47684 :=
      decimal_round_eq_of_nonneg 2 _ 47684 (by norm_num) (by norm_num) (by norm_num)
    rw [print_size_M 500000000 (by norm_num) (by norm_num),
      fmt_fixed_eq 6 2 false _ 47684 hround]
    decide

/-- C9, amended, at the largest size shown in megabytes, 1048570757: it is
written as 999.99M. -/
theorem C9_print_size_below_1000_witness :
    print_size 1048570757 = fmt_fixed 6 2 false (((1048570757 : Int) : ℚ) / 2 ^ 20) ++ ascii "M " ∧
    decimal_round 2 (((1048570757 : Int) : ℚ) / 2 ^ 20) ≤ 99999 :=
  (C9_print_size_below_1000 1048570757 (by norm_num) (by norm_num)).1 (by norm_num)

/-! ### C10 -/

/-- Which unit `print_rate` takes, for every non-negative rate. -/
theorem rate_threshold_iff (rate : Int) (h0 : 0 ≤ rate) :
    fl (double_999_995 * 2 ^ 10) ≤ to_double rate ↔ 1023995 ≤ rate := by
  rw [rate_threshold_eq]
  by_cases h53 : rate < 2 ^ 53
  · rw [to_double_of_nonneg rate h0 h53]
    constructor
    · intro hle
      have h1 : (1023994 : ℚ) < rate := by
        have : (1023994 : ℚ) < 8796049041742889 / 2 ^ 33 := by norm_num
        linarith
      have h2 : (1023994 : Int) < rate := by exact_mod_cast h1
      omega
    · intro hle
      have h1 : (1023995 : ℚ) ≤ rate := by exact_mod_cast hle
      have : (8796049041742889 / 2 ^ 33 : ℚ) ≤ (1023995 : ℚ) := by norm_num
      linarith
  · have hbig := le_to_double rate (by omega)
    constructor
    · intro _; omega
    · intro _
      have : (8796049041742889 / 2 ^ 33 : ℚ) ≤ 2 ^ 53 := by norm_num
      linarith

theorem print_rate_MB (rate : Int) (hge : 1023995 ≤ rate) :
    print_rate rate = fmt_fixed 6 2 false (fl (to_double rate / 2 ^ 20)) ++ ascii "MB/s " := by
  unfold print_rate
  rw [if_pos ((rate_threshold_iff rate (by omega)).mpr hge), decide_eq_false (by omega)]

theorem print_rate_kB (rate : Int) (h0 : 0 ≤ rate) (hlt : rate < 1023995) :
    print_rate rate = fmt_fixed 6 2 false ((rate : ℚ) / 2 ^ 10) ++ ascii "kB/s " := by
  have h53 : rate < 2 ^ 53 := by omega
  have hcond : ¬ (fl (double_999_995 * 2 ^ 10) ≤ to_double rate) := by
    rw [rate_threshold_iff rate h0]; omega
  unfold print_rate
  rw [if_neg hcond, to_double_of_nonneg rate h0 h53,
    fl_div_two_pow rate 10 (by rw [abs_of_nonneg h0]; exact h53), decide_eq_false (by omega)]

theorem suffix_same_length (l₁ l₂ body : List Nat) (hlen : l₁.length = l₂.length)
    (h : l₁ <:+ body ++ l₂) : l₁ = l₂ := by
  obtain ⟨t, ht⟩ := h
  exact (List.append_inj' ht hlen).2

/-- C10: for every non-negative rate, `print_rate` uses the MB/s unit exactly
when rate >= 999.995 * 1024, that is when rate >= 1023995, and this is exactly
when rate / 1024 rounded to two decimals reaches 1000.00; the rate 1023995 at
the threshold is shown in MB/s (as 0.98MB/s), and every value shown in kB/s is
displayed as at most 999.99. -/
theorem C10_print_rate_threshold (rate : Int) (h0 : 0 ≤ rate) :
    (ascii "MB/s " <:+ print_rate rate ↔ 1023995 ≤ rate) ∧
    (1023995 ≤ rate ↔ (999995 / 1000 : ℚ) * 1024 ≤ rate) ∧
    (1023995 ≤ rate ↔ 100000 ≤ decimal_round 2 ((rate : ℚ) / 1024)) ∧
    (1023995 ≤ rate →
      print_rate rate = fmt_fixed 6 2 false (fl (to_double rate / 2 ^ 20)) ++ ascii "MB/s ") ∧
    (rate < 1023995 →
      print_rate rate = fmt_fixed 6 2 false ((rate : ℚ) / 2 ^ 10) ++ ascii "kB/s " ∧
      decimal_round 2 ((rate : ℚ) / 2 ^ 10) ≤ 99999) ∧
    print_rate 1023995 = ascii "  0.98MB/s " := by
  have hq0 : (0 : ℚ) ≤ rate := by exact_mod_cast h0
  have hMB := print_rate_MB rate
  have hkB := print_rate_kB rate h0
  have hsmall : rate < 1023995 → decimal_round 2 ((rate : ℚ) / 2 ^ 10) ≤ 99999 := by
    intro hlt
    apply decimal_round_le_of_nonneg 2 _ _ (by positivity)
    have hle : (rate : ℚ) ≤ (1023994 : ℚ) := by
      have : rate ≤ 1023994 := by omega
      exact_mod_cast this
    have : (rate : ℚ) / 2 ^ 10 * 10 ^ 2 ≤ (1023994 : ℚ) / 2 ^ 10 * 10 ^ 2 := by
      gcongr
    have h2 : (1023994 : ℚ) / 2 ^ 10 * 10 ^ 2 < ((99999 : ℕ) : ℚ) + 1 / 2 := by
      norm_num
    linarith
  refine ⟨?_, ?_, ?_, hMB, fun hlt => ⟨hkB hlt, hsmall hlt⟩, ?_⟩
  · constructor
    · intro hsuf
      by_contra hlt
      rw [hkB (by omega)] at hsuf
      have := suffix_same_length _ _ _ (by decide) hsuf
      exact absurd this (by decide)
    · intro hge
      rw [hMB hge]
      exact List.suffix_append _ _
  · constructor
    · intro hge
      have h1 : (1023995 : ℚ) ≤ rate := by exact_mod_cast hge
      have : (999995 / 1000 : ℚ) * 1024 ≤ (1023995 : ℚ) := by norm_num
      linarith
    · intro hle
      have h1 : (1023994 : ℚ) < rate := by
        have : (1023994 : ℚ) < 999995 / 1000 * 1024 := by norm_num
        linarith
      have h2 : (1023994 : Int) < rate := by exact_mod_cast h1
      omega
  · constructor
    · intro hge
      apply le_decimal_round_of_nonneg 2 _ _ (by positivity)
      have h1 : (1023995 : ℚ) ≤ rate := by exact_mod_cast hge
      have : (1023995 : ℚ) / 1024 * 10 ^ 2 ≤ (rate : ℚ) / 1024 * 10 ^ 2 := by
        gcongr
      have h2 : ((100000 : ℕ) : ℚ) - 1 / 2 < (1023995 : ℚ) / 1024 * 10 ^ 2 := by
        norm_num
      linarith
    · intro hge
      by_contra hlt
      have := hsmall (by omega)
      have h1024 : ((rate : ℚ) / 2 ^ 10) = (rate : ℚ) / 1024 := by norm_num
      rw [h1024] at this
      omega
  · have hround : decimal_round 2 (((1023995 : Int) : ℚ) / 2 ^ 20) = 98 :=
      decimal_round_eq_of_nonneg 2 _ 98 (by norm_num) (by norm_num) (by norm_num)
    rw [print_rate_MB 1023995 (by norm_num), to_double_of_nonneg 1023995 (by norm_num) (by norm_num),
      fl_div_two_pow 1023995 20 (by norm_num), fmt_fixed_eq 6 2 false _ 98 hround]
    decide

/-- C10 at the rate 1023994, the last one shown in kB/s. -/
theorem C10_print_rate_threshold_witness :
    print_rate 1023994 = fmt_fixed 6 2 false (((1023994 : Int) : ℚ) / 2 ^ 10) ++ ascii "kB/s " ∧
    decimal_round 2 (((1023994 : Int) : ℚ) / 2 ^ 10) ≤ 99999 :=
  (C10_print_rate_threshold 1023994 (by norm_num)).2.2.2.2.1 (by norm_num)

/-! ### The template scan -/

theorem cstr_of_no_nul (s : List Nat) (h0 : 0 ∉ s) : cstr s = s := by
  unfold cstr
  rw [List.takeWhile_eq_self_iff]
  intro x hx
  have : x ≠ 0 := fun h => h0 (h ▸ hx)
  simpa using this

theorem strlen_of_no_nul (s : List Nat) (h0 : 0 ∉ s) : strlen s = s.length := by
  unfold strlen
  rw [cstr_of_no_nul s h0]

theorem char_at_cons_zero (c : Nat) (l : List Nat) : char_at (c :: l) 0 = c := rfl

theorem char_at_nil (i : Nat) : char_at [] i = 0 := by
  simp [char_at]

theorem is_lead_iff (c : Nat) : is_lead c = true ↔ c = 37 ∨ c = 92 := by
  simp [is_lead]

/-- One round of the loop at a lead character. -/
theorem scan_from_lead (p : item) (format : List Nat) (fuel i : Nat)
    (hin : ¬ strlen format < i) (hlead : is_lead (char_at format i) = true) :
    (scan_from p format (fuel + 1) i).ended = (scan_from p format fuel (i + 2)).ended ∧
    (scan_from p format (fuel + 1) i).examined
      = i :: (i + 1) :: (scan_from p format fuel (i + 2)).examined := by
  rcases (is_lead_iff _).mp hlead with h | h
  · simp [scan_from, hin, h]
  · simp [scan_from, hin, h]

/-- One round of the loop at a character that is no lead character. -/
theorem scan_from_plain (p : item) (format : List Nat) (fuel i : Nat)
    (hin : ¬ strlen format < i) (hc : char_at format i ≠ 0)
    (hlead : is_lead (char_at format i) = false) :
    (scan_from p format (fuel + 1) i).ended = (scan_from p format fuel (i + 1)).ended ∧
    (scan_from p format (fuel + 1) i).examined
      = i :: (scan_from p format fuel (i + 1)).examined ∧
    (scan_from p format (fuel + 1) i).out
      = out_atom.chr (char_at format i) :: (scan_from p format fuel (i + 1)).out := by
  have h37 : char_at format i ≠ 37 := by
    intro h; rw [h] at hlead; exact absurd hlead (by decide)
  have h92 : char_at format i ≠ 92 := by
    intro h; rw [h] at hlead; exact absurd hlead (by decide)
  simp [scan_from, hin, hc, h37, h92]

theorem ends_with_lone_lead_plain (c : Nat) (l : List Nat) (h : is_lead c = false) :
    ends_with_lone_lead (c :: l) = ends_with_lone_lead l := by
  cases l with
  | nil => simp [ends_with_lone_lead, h]
  | cons d rest => simp [ends_with_lone_lead, h]

theorem ends_with_lone_lead_pair (c d : Nat) (l : List Nat) (h : is_lead c = true) :
    ends_with_lone_lead (c :: d :: l) = ends_with_lone_lead l := by
  simp [ends_with_lone_lead, h]

/-- How the scan ends and which offsets it dereferences, from any offset on. -/
theorem scan_from_spec (p : item) (format : List Nat) (h0 : 0 ∉ format) :
    ∀ (fuel : Nat) (pre suf : List Nat), format = pre ++ suf → suf.length + 2 ≤ fuel →
      (scan_from p format fuel pre.length).ended
        = (if ends_with_lone_lead suf = true then scan_end.past_terminator
           else scan_end.at_terminator) ∧
      (scan_from p format fuel pre.length).examined
        = List.range' pre.length
            (suf.length + (if ends_with_lone_lead suf = true then 2 else 1)) := by
  intro fuel
  induction fuel with
  | zero => intro pre suf _ hfuel; omega
  | succ fuel ih =>
    intro pre suf hsplit hfuel
    have hlen : strlen format = pre.length + suf.length := by
      rw [strlen_of_no_nul format h0, hsplit, List.length_append]
    have hin : ¬ strlen format < pre.length := by omega
    cases suf with
    | nil =>
      have hc : char_at format pre.length = 0 := by
        rw [hsplit, char_at_length, char_at_nil]
      simp [scan_from, hin, hc, ends_with_lone_lead]
    | cons c rest =>
      have hcv : char_at format pre.length = c := by
        rw [hsplit, char_at_length, char_at_cons_zero]
      have hc0 : c ≠ 0 := by
        intro h
        apply h0
        rw [hsplit, h]
        simp
      by_cases hlead : is_lead c = true
      · obtain ⟨he, hx⟩ := scan_from_lead p format fuel pre.length hin
          (by rw [hcv]; exact hlead)
        rw [he, hx]
        cases rest with
        | nil =>
          obtain ⟨f, rfl⟩ : ∃ f, fuel = f + 1 := ⟨fuel - 1, by simp at hfuel; omega⟩
          have hout : strlen format < pre.length + 2 := by
            rw [hlen]; simp
          simp [scan_from, hout, ends_with_lone_lead, hlead, List.range'_succ]
        | cons d rest2 =>
          have hsplit2 : format = (pre ++ [c, d]) ++ rest2 := by
            rw [hsplit]; simp
          have := ih (pre ++ [c, d]) rest2 hsplit2 (by simp at hfuel; omega)
          have hl2 : (pre ++ [c, d]).length = pre.length + 2 := by simp
          rw [hl2] at this
          rw [this.1, this.2, ends_with_lone_lead_pair c d rest2 hlead]
          refine ⟨rfl, ?_⟩
          have hcount : (d :: rest2).length + 1
              + (if ends_with_lone_lead rest2 = true then 2 else 1)
              = (rest2.length + (if ends_with_lone_lead rest2 = true then 2 else 1)) + 2 := by
            simp only [List.length_cons]; omega
          rw [List.length_cons, hcount, List.range'_succ, List.range'_succ]
      · have hl : is_lead c = false := by simpa using hlead
        obtain ⟨he, hx, -⟩ := scan_from_plain p format fuel pre.length hin
          (by rw [hcv]; exact hc0) (by rw [hcv]; exact hl)
        rw [he, hx]
        have hsplit2 : format = (pre ++ [c]) ++ rest := by
          rw [hsplit]; simp
        have := ih (pre ++ [c]) rest hsplit2 (by simp at hfuel; omega)
        have hl2 : (pre ++ [c]).length = pre.length + 1 := by simp
        rw [hl2] at this
        rw [this.1, this.2, ends_with_lone_lead_plain c rest hl]
        refine ⟨rfl, ?_⟩
        have hcount : (c :: rest).length + (if ends_with_lone_lead rest = true then 2 else 1)
            = (rest.length + (if ends_with_lone_lead rest = true then 2 else 1)) + 1 := by
          simp only [List.length_cons]; omega
        rw [hcount, List.range'_succ]

/-- What the scan writes for a template part without lead characters. -/
theorem scan_from_out_plain (p : item) (format : List Nat) (h0 : 0 ∉ format) :
    ∀ (fuel : Nat) (pre suf : List Nat), format = pre ++ suf → suf.length + 1 ≤ fuel →
      (∀ c ∈ suf, is_lead c = false) →
      (scan_from p format fuel pre.length).out = text suf := by
  intro fuel
  induction fuel with
  | zero => intro pre suf _ hfuel; omega
  | succ fuel ih =>
    intro pre suf hsplit hfuel hplain
    have hlen : strlen format = pre.length + suf.length := by
      rw [strlen_of_no_nul format h0, hsplit, List.length_append]
    have hin : ¬ strlen format < pre.length := by omega
    cases suf with
    | nil =>
      have hc : char_at format pre.length = 0 := by
        rw [hsplit, char_at_length, char_at_nil]
      simp [scan_from, hin, hc, text]
    | cons c rest =>
      have hcv : char_at format pre.length = c := by
        rw [hsplit, char_at_length, char_at_cons_zero]
      have hc0 : c ≠ 0 := by
        intro h
        apply h0
        rw [hsplit, h]
        simp
      have hl : is_lead c = false := hplain c (List.mem_cons_self _ _)
      obtain ⟨-, -, ho⟩ := scan_from_plain p format fuel pre.length hin
        (by rw [hcv]; exact hc0) (by rw [hcv]; exact hl)
      have hsplit2 : format = (pre ++ [c]) ++ rest := by
        rw [hsplit]; simp
      have := ih (pre ++ [c]) rest hsplit2 (by simp at hfuel; omega)
        (fun x hx => hplain x (List.mem_cons_of_mem _ hx))
      have hl2 : (pre ++ [c]).length = pre.length + 1 := by simp
      rw [hl2] at this
      rw [ho, this, hcv]
      simp [text]

theorem not_lone_lead_of_plain (l : List Nat) (h : ∀ c ∈ l, is_lead c = false) :
    ends_with_lone_lead l = false := by
  induction l with
  | nil => rfl
  | cons c rest ih =>
    rw [ends_with_lone_lead_plain c rest (h c (List.mem_cons_self _ _))]
    exact ih (fun x hx => h x (List.mem_cons_of_mem _ hx))

theorem is_lead_false_of_not_mem (format : List Nat) (h37 : 37 ∉ format) (h92 : 92 ∉ format) :
    ∀ c ∈ format, is_lead c = false := by
  intro c hc
  have h1 : c ≠ 37 := fun h => h37 (h ▸ hc)
  have h2 : c ≠ 92 := fun h => h92 (h ▸ hc)
  simp [is_lead, h1, h2]

/-- The scan of a template without lead characters copies the template. -/
theorem scan_template_plain (p : item) (format : List Nat)
    (h37 : 37 ∉ format) (h92 : 92 ∉ format) (h0 : 0 ∉ format) :
    scan_template p format =
      { out := text format, examined := List.range (format.length + 1),
        ended := scan_end.at_terminator } := by
  have hplain := is_lead_false_of_not_mem format h37 h92
  have hspec := scan_from_spec p format h0 (format.length + 2) [] format rfl (le_refl _)
  have hout := scan_from_out_plain p format h0 (format.length + 2) [] format rfl (by omega)
    hplain
  rw [not_lone_lead_of_plain format hplain] at hspec
  simp only [List.length_nil, Bool.false_eq_true, if_false] at hspec hout
  have hres : ∀ r : scan_result, r.out = text format →
      r.examined = List.range (format.length + 1) → r.ended = scan_end.at_terminator →
      r = { out := text format, examined := List.range (format.length + 1),
            ended := scan_end.at_terminator } := by
    intro r h1 h2 h3
    cases r
    simp only at h1 h2 h3
    subst h1 h2 h3
    rfl
  exact hres (scan_from p format (format.length + 2) 0) hout
    (by rw [hspec.2, List.range_eq_range']) hspec.1

theorem print_queue_plain (format : List Nat)
    (h37 : 37 ∉ format) (h92 : 92 ∉ format) (h0 : 0 ∉ format) (l : List item) :
    print_queue (some format) l =
      { out := (List.replicate l.length (text format)).flatten, overrun := false } := by
  induction l with
  | nil => simp [print_queue]
  | cons p rest ih =>
    simp [print_queue, scan_template_plain p format h37 h92 h0, ih, List.replicate_succ]

/-! ### C11 -/

/-- C11: for every template that contains neither `'%'` nor a backslash and
every item list of length n, `print_items` in template mode writes exactly n
consecutive copies of the template, whatever the field values of the items are,
and never leaves the template: the scan of the template for any single item
copies every character, visits the offsets 0 to the terminating NUL in order
and ends there, so nothing is carried from one record to the next. -/
theorem C11_plain_template_copies (itms : items) (format : List Nat)
    (h37 : 37 ∉ format) (h92 : 92 ∉ format) (h0 : 0 ∉ format) :
    (print_items itms (some format)).out
      = (List.replicate itms.hd.length (text format)).flatten ∧
    (print_items itms (some format)).overrun = false ∧
    ∀ p : item, scan_template p format =
      { out := text format, examined := List.range (format.length + 1),
        ended := scan_end.at_terminator } := by
  refine ⟨?_, ?_, fun p => scan_template_plain p format h37 h92 h0⟩
  · rw [print_items, print_queue_plain format h37 h92 h0]
  · rw [print_items, print_queue_plain format h37 h92 h0]

/-- C11 at the template `"ab "` and a queue of two items that differ in every
field: the output is `"ab ab "`. -/
theorem C11_plain_template_copies_witness :
    (print_items
      { count := 2, argv := [], ntps := 0, tps := [],
        hd := [ { num := 1, peers := 2, name := [120], dir := [], label := [], hash := [],
                  st := 76, cgot := 1, csize := 0, totup := 3, downloaded := 4, uploaded := 5,
                  rate_up := 6, rate_down := 7, torrent_pieces := 8, pieces_have := 9,
                  pieces_seen := 10 },
                { num := 11, peers := 12, name := [121], dir := [1], label := [2], hash := [3],
                  st := 83, cgot := 21, csize := 22, totup := 23, downloaded := 24,
                  uploaded := 25, rate_up := 26, rate_down := 27, torrent_pieces := 28,
                  pieces_have := 29, pieces_seen := 30 } ] }
      (some (ascii "ab "))).out = text (ascii "ab ab ") :=
  (C11_plain_template_copies _ (ascii "ab ") (by decide) (by decide) (by decide)).1

/-! ### C15 -/

theorem not_lone_lead_of_followed (l : List Nat)
    (h : ∀ i, i < l.length → is_lead (char_at l i) = true → i + 1 < l.length) :
    ends_with_lone_lead l = false := by
  induction l using List.reverseRecOn with
  | nil => rfl
  | append_singleton pre c _ =>
    have hc : is_lead c = false := by
      by_contra hcon
      have hl : is_lead c = true := by simpa using hcon
      have := h pre.length (by simp) (by
        rw [char_at_length, char_at_cons_zero]; exact hl)
      simp at this
    -- a scan over `pre ++ [c]` with a last character that is no lead never ends alone
    have key : ∀ (n : Nat) (m : List Nat), m.length ≤ n →
        ends_with_lone_lead (m ++ [c]) = false := by
      intro n
      induction n with
      | zero =>
        intro m hm
        have : m = [] := List.length_eq_zero.mp (by omega)
        subst this
        simp [ends_with_lone_lead, hc]
      | succ n ihn =>
        intro m hm
        cases m with
        | nil => simp [ends_with_lone_lead, hc]
        | cons a rest =>
          by_cases ha : is_lead a = true
          · cases rest with
            | nil =>
              simp [ends_with_lone_lead, ha]
            | cons b rest2 =>
              have := ihn rest2 (by simp at hm; omega)
              simpa [ends_with_lone_lead, ha] using this
          · have ha2 : is_lead a = false := by simpa using ha
            have := ihn rest (by simp at hm; omega)
            rw [List.cons_append, ends_with_lone_lead_plain a _ ha2]
            exact this
    exact key pre.length pre (le_refl _)

/-- C15: for every template, the scan of `print_items` stays inside the string
(it dereferences no offset behind the terminating NUL) and stops at the
terminator if and only if the left-to-right scan, in which each lead character
consumes the character behind it, does not end with a lone `'%'` or backslash as
the last character. Then it visits every offset from 0 to the terminator
exactly once, in order; otherwise it visits them and then the offset behind the
terminator. Every template in which each lead character is followed by another
character is scanned safely. A code after a lead character that the `switch`
does not know is consumed without output. -/
theorem C15_template_scan_bounds (p : item) (format : List Nat) (h0 : 0 ∉ format) :
    (((scan_template p format).ended = scan_end.at_terminator ∧
        ∀ i ∈ (scan_template p format).examined, i ≤ strlen format)
      ↔ ends_with_lone_lead format = false) ∧
    (ends_with_lone_lead format = false →
      (scan_template p format).ended = scan_end.at_terminator ∧
      (scan_template p format).examined = List.range (format.length + 1)) ∧
    (ends_with_lone_lead format = true →
      (scan_template p format).ended = scan_end.past_terminator ∧
      (scan_template p format).examined = List.range (format.length + 2)) ∧
    ((∀ i, i < format.length → is_lead (char_at format i) = true → i + 1 < format.length) →
      (scan_template p format).ended = scan_end.at_terminator ∧
      (scan_template p format).examined = List.range (format.length + 1)) ∧
    (∀ c, c ∉ [37, 35, 94, 65, 68, 72, 80, 83, 85, 84, 100, 103, 104, 108, 110, 112, 114,
        115, 116, 117, 118] → field_out p c = []) ∧
    (∀ c, c ≠ 110 → c ≠ 116 → escape_out c = []) ∧
    scan_template p (ascii "a%zb") =
      { out := text (ascii "ab"), examined := [0, 1, 2, 3, 4],
        ended := scan_end.at_terminator } := by
  have hspec := scan_from_spec p format h0 (format.length + 2) [] format rfl (le_refl _)
  simp only [List.length_nil, ← List.range_eq_range'] at hspec
  have hlen := strlen_of_no_nul format h0
  have hsafe : ends_with_lone_lead format = false →
      (scan_template p format).ended = scan_end.at_terminator ∧
      (scan_template p format).examined = List.range (format.length + 1) := by
    intro h
    rw [h] at hspec
    exact ⟨hspec.1, hspec.2⟩
  have hlone : ends_with_lone_lead format = true →
      (scan_template p format).ended = scan_end.past_terminator ∧
      (scan_template p format).examined = List.range (format.length + 2) := by
    intro h
    rw [h] at hspec
    exact ⟨hspec.1, hspec.2⟩
  refine ⟨?_, hsafe, hlone, fun h => hsafe (not_lone_lead_of_followed format h), ?_, ?_, ?_⟩
  · constructor
    · intro hin
      by_contra hcon
      have ht : ends_with_lone_lead format = true := by simpa using hcon
      rw [(hlone ht).1] at hin
      exact absurd hin.1 (by decide)
    · intro h
      refine ⟨(hsafe h).1, ?_⟩
      intro i hi
      rw [(hsafe h).2, List.mem_range] at hi
      omega
  · intro c hc
    simp only [List.mem_cons, List.mem_singleton, List.not_mem_nil, or_false, not_or] at hc
    obtain ⟨h1, h2, h3, h4, h5, h6, h7, h8, h9, h10, h11, h12, h13, h14, h15, h16, h17, h18,
      h19, h20, h21⟩ := hc
    simp [field_out, h1, h2, h3, h4, h5, h6, h7, h8, h9, h10, h11, h12, h13, h14, h15, h16,
      h17, h18, h19, h20, h21]
  · intro c h1 h2
    simp [escape_out, h1, h2]
  · have hz : field_out p 122 = [] := by simp [field_out]
    simp [scan_template, scan_from, strlen, cstr, ascii, char_at, hz, text]

/-- C15 at the template `"ab%"`, which ends with a lone `'%'`: the scan reads
the terminator at offset 3 as a code and then dereferences offset 4, behind the
terminator. -/
theorem C15_template_scan_bounds_witness :
    (scan_template
      { num := 1, peers := 2, name := [120], dir := [], label := [], hash := [],
        st := 76, cgot := 1, csize := 0, totup := 3, downloaded := 4, uploaded := 5,
        rate_up := 6, rate_down := 7, torrent_pieces := 8, pieces_have := 9,
        pieces_seen := 10 } (ascii "ab%")).ended = scan_end.past_terminator ∧
    (scan_template
      { num := 1, peers := 2, name := [120], dir := [], label := [], hash := [],
        st := 76, cgot := 1, csize := 0, totup := 3, downloaded := 4, uploaded := 5,
        rate_up := 6, rate_down := 7, torrent_pieces := 8, pieces_have := 9,
        pieces_seen := 10 } (ascii "ab%")).examined = List.range ((ascii "ab%").length + 2) :=
  (C15_template_scan_bounds _ (ascii "ab%") (by decide)).2.2.1 (by decide)

/-! ### C12 -/

theorem list_cb_congr (ipc_strerror : Int → List Nat) (bin2hex : List Nat → List Nat)
    (obji objerr : Int) (res res2 : ipc_tval → ipc_get_res) (itms : items)
    (hnum : ∀ k, (res2 k).num = (res k).num) (hstr : ∀ k, (res2 k).str = (res k).str)
    (htype : ∀ k, k ∉ numeric_keys → (res2 k).type = (res k).type) :
    list_cb ipc_strerror bin2hex obji objerr res2 itms
      = list_cb ipc_strerror bin2hex obji objerr res itms := by
  have hn := htype .IPC_TVAL_NAME (by decide)
  have hd := htype .IPC_TVAL_DIR (by decide)
  have hl := htype .IPC_TVAL_LABEL (by decide)
  simp only [list_cb, list_item, text_field, hnum, hstr, hn, hd, hl]

/-- The state number is narrowed to 32 bits where it is passed to
`tstate_char`: the state 2^32 + 3 is the state 3, and the item is inserted with
the state character `'L'`. -/
theorem list_cb_state_narrowed :
    (list_cb (fun _ => [101]) id 0 IPC_OK
      (fun k => if k = ipc_tval.IPC_TVAL_STATE then
          { type := ipc_type.IPC_TYPE_NUM, num := 2 ^ 32 + 3, str := [] }
        else { type := ipc_type.IPC_TYPE_NUM, num := 5, str := [97] })
      { count := 0, argv := [], ntps := 0, tps := [], hd := [] }).map
        (fun r => r.hd.map (fun i => i.st)) = some [76] := by
  decide

/-- In `stat_cb` the test for an inactive torrent reads the 64 bit number, and
the state stored in `st` is narrowed to 32 bits: with the state 2^32 in
individual mode the callback contributes, prints its line with the state
character `'I'` and returns. -/
theorem stat_cb_state_narrowed :
    (stat_cb 0 IPC_OK
      (fun k => if k = ipc_tval.IPC_TVAL_STATE then
          { type := ipc_type.IPC_TYPE_NUM, num := 2 ^ 32, str := [] }
        else { type := ipc_type.IPC_TYPE_NUM, num := 5, str := [] })
      { individual := 1, names := 0, tot := btstat_zero }).exit = false ∧
    (stat_cb 0 IPC_OK
      (fun k => if k = ipc_tval.IPC_TVAL_STATE then
          { type := ipc_type.IPC_TYPE_NUM, num := 2 ^ 32, str := [] }
        else { type := ipc_type.IPC_TYPE_NUM, num := 5, str := [] })
      { individual := 1, names := 0, tot := btstat_zero }).cba.tot.content_got = 5 ∧
    (stat_cb 0 IPC_OK
      (fun k => if k = ipc_tval.IPC_TVAL_STATE then
          { type := ipc_type.IPC_TYPE_NUM, num := 2 ^ 32, str := [] }
        else { type := ipc_type.IPC_TYPE_NUM, num := 5, str := [] })
      { individual := 1, names := 0, tot := btstat_zero }).out.map
        (fun e => match e with
          | stat_event.torrent_line _ st _ => st
          | _ => 0) = [73] := by
  decide

/-- C12, as stated, fails: a callback with per-torrent error OK whose number
slot is an error slot (carrying the error code 7), all other slots being values,
does not stop the command; `list_cb` builds the item with the number 7 and
inserts it. -/
theorem C12_counterexample :
    list_cb (fun _ => [101]) id 0 IPC_OK
      (fun k => if k = ipc_tval.IPC_TVAL_NUM then
          { type := ipc_type.IPC_TYPE_ERR, num := 7, str := [] }
        else if k = ipc_tval.IPC_TVAL_STATE then
          { type := ipc_type.IPC_TYPE_NUM, num := IPC_TSTATE_LEECH, str := [] }
        else if k = ipc_tval.IPC_TVAL_NAME ∨ k = ipc_tval.IPC_TVAL_DIR ∨
            k = ipc_tval.IPC_TVAL_LABEL ∨ k = ipc_tval.IPC_TVAL_IHASH then
          { type := ipc_type.IPC_TYPE_STR, num := 0, str := [97] }
        else { type := ipc_type.IPC_TYPE_NUM, num := 5, str := [] })
      { count := 0, argv := [], ntps := 0, tps := [], hd := [] }
    = some { count := 1, argv := [], ntps := 0, tps := [],
             hd := [ { num := 7, peers := 5, name := [97], dir := [97], label := [97],
                       hash := [97], st := 76, cgot := 5, csize := 5, totup := 5,
                       downloaded := 5, uploaded := 5, rate_up := 5, rate_down := 5,
                       torrent_pieces := 5, pieces_have := 5, pieces_seen := 5 } ] } := by
  decide

/-- C12, amended: `list_cb` stops the whole command (exit 1) exactly when the
per-torrent error is not OK or the number in the state slot, converted to the
32 bit `enum ipc_tstate`, is no torrent state. It never looks at the tag of a
numeric slot: two callbacks that differ only in the tags of numeric slots have
the same effect, so an error slot in a
numeric position is read as the number it carries. With per-torrent error OK
and a valid state, the item is built from those numbers and inserted, and an
error slot for name, directory or label is replaced by the description of its
error. -/
theorem C12_list_cb_numeric_slots (ipc_strerror : Int → List Nat)
    (bin2hex : List Nat → List Nat) (obji objerr : Int) (res : ipc_tval → ipc_get_res)
    (itms : items) :
    (list_cb ipc_strerror bin2hex obji objerr res itms = none ↔
      (objerr ≠ IPC_OK ∨ tstate_char (to_tstate (res .IPC_TVAL_STATE).num) = none)) ∧
    (∀ res2 : ipc_tval → ipc_get_res,
      (∀ k, (res2 k).num = (res k).num) → (∀ k, (res2 k).str = (res k).str) →
      (∀ k, k ∉ numeric_keys → (res2 k).type = (res k).type) →
      list_cb ipc_strerror bin2hex obji objerr res2 itms
        = list_cb ipc_strerror bin2hex obji objerr res itms) ∧
    (∀ st, objerr = IPC_OK → tstate_char (to_tstate (res .IPC_TVAL_STATE).num) = some st →
      ∃ itm : item,
        itm = list_item ipc_strerror bin2hex res st ∧
        list_cb ipc_strerror bin2hex obji objerr res itms
          = some (itm_insert { itms with count := itms.count + 1 } itm) ∧
        itm.st = st ∧
        itm.num = to_u32 (res .IPC_TVAL_NUM).num ∧
        itm.peers = to_u32 (res .IPC_TVAL_PCOUNT).num ∧
        itm.cgot = (res .IPC_TVAL_CGOT).num ∧ itm.csize = (res .IPC_TVAL_CSIZE).num ∧
        itm.totup = (res .IPC_TVAL_TOTUP).num ∧
        itm.downloaded = (res .IPC_TVAL_SESSDWN).num ∧
        itm.uploaded = (res .IPC_TVAL_SESSUP).num ∧
        itm.rate_up = (res .IPC_TVAL_RATEUP).num ∧
        itm.rate_down = (res .IPC_TVAL_RATEDWN).num ∧
        itm.torrent_pieces = to_u32 (res .IPC_TVAL_PCCOUNT).num ∧
        itm.pieces_seen = to_u32 (res .IPC_TVAL_PCSEEN).num ∧
        itm.pieces_have = to_u32 (res .IPC_TVAL_PCGOT).num ∧
        ((res .IPC_TVAL_NAME).type = ipc_type.IPC_TYPE_ERR →
          itm.name = cstr (ipc_strerror (res .IPC_TVAL_NAME).num)) ∧
        ((res .IPC_TVAL_DIR).type = ipc_type.IPC_TYPE_ERR →
          itm.dir = cstr (ipc_strerror (res .IPC_TVAL_DIR).num)) ∧
        ((res .IPC_TVAL_LABEL).type = ipc_type.IPC_TYPE_ERR →
          itm.label = cstr (ipc_strerror (res .IPC_TVAL_LABEL).num))) := by
  refine ⟨?_, ?_, ?_⟩
  · by_cases herr : objerr = IPC_OK
    · cases hst : tstate_char (to_tstate (res .IPC_TVAL_STATE).num) with
      | none => simp [list_cb, herr, hst]
      | some st => simp [list_cb, herr, hst]
    · simp [list_cb, herr]
  · intro res2 hnum hstr htype
    exact list_cb_congr ipc_strerror bin2hex obji objerr res res2 itms hnum hstr htype
  · intro st herr hst
    refine ⟨list_item ipc_strerror bin2hex res st, rfl, ?_, ?_⟩
    · simp only [list_cb, herr, ne_eq, not_true_eq_false, if_false, hst]
    · refine ⟨rfl, rfl, rfl, rfl, rfl, rfl, rfl, rfl, rfl, rfl, rfl, rfl, rfl, ?_, ?_, ?_⟩
      · intro h; simp [list_item, text_field, h]
      · intro h; simp [list_item, text_field, h]
      · intro h; simp [list_item, text_field, h]

/-! ### C13 -/

/-- While no request is answered with `IPC_COMMERR`, the walk over the tokens
never leaves the process. -/
theorem each_token_no_exit (mi_load : List Nat → Option (List Nat))
    (mi_info_hash : List Nat → List Nat) (cmd : List Nat)
    (answer : Nat → ipc_torrent → Int) (hcomm : ∀ k t, answer k t ≠ IPC_COMMERR)
    (args : List (List Nat)) (s : cmd_state) (hs : s.exited = none) :
    (each_token mi_load mi_info_hash cmd answer args s).exited = none := by
  induction args generalizing s with
  | nil => simpa [each_token] using hs
  | cons tok rest ih =>
    simp only [each_token]
    split_ifs with hret
    · have hh : (handle_ipc_res
          (answer s.sent.length (torrent_spec mi_load mi_info_hash tok s.t).tp) cmd tok).1
          = some (answer s.sent.length (torrent_spec mi_load mi_info_hash tok s.t).tp) := by
        unfold handle_ipc_res
        split_ifs with h1 h2
        · rfl
        · exact absurd h2 (hcomm _ _)
        · rfl
      rw [hh]
      exact ih _ hs
    · exact ih _ hs

/-- The exit status of del, start and stop is 0 whenever there is a token, the
connection opens and no request is answered with `IPC_COMMERR`, however many
tokens fail. -/
theorem run_token_cmd_status (mi_load : List Nat → Option (List Nat))
    (mi_info_hash : List Nat → List Nat) (cmd : List Nat)
    (answer : Nat → ipc_torrent → Int) (hcomm : ∀ k t, answer k t ≠ IPC_COMMERR)
    (t0 : ipc_torrent) (args : List (List Nat)) (hargs : args ≠ []) :
    (run_token_cmd mi_load mi_info_hash cmd true answer t0 args).status = 0 := by
  have h := each_token_no_exit mi_load mi_info_hash cmd answer hcomm args
    { t := t0, sent := [], err := [], exited := none } rfl
  simp only [run_token_cmd, hargs, if_false, h]
  simp

/-- C13 at `btcli del nosuch.torrent 3` (and likewise start and stop) where no
file `nosuch.torrent` can be loaded and the daemon answers OK: the failing
token is skipped and reported, the torrent number 3 is sent to the daemon, and
the exit status is 0, not the non-zero status the claim states. -/
theorem C13_del_exit_status_zero :
    cmd_del (fun _ => none) id true (fun _ _ => IPC_OK) { by_hash := 0, num := 0, hash := [] }
      [ascii "nosuch.torrent", ascii "3"]
      = { sent := [{ by_hash := 0, num := 3, hash := [] }],
          err := [err_event.bad_torrent (ascii "nosuch.torrent")], usage := false,
          status := 0 } ∧
    (cmd_start (fun _ => none) id true (fun _ _ => IPC_OK)
      { by_hash := 0, num := 0, hash := [] } [ascii "nosuch.torrent", ascii "3"]).status = 0 ∧
    (cmd_stop (fun _ => none) id true (fun _ _ => IPC_OK)
      { by_hash := 0, num := 0, hash := [] } [ascii "nosuch.torrent", ascii "3"]).status = 0 := by
  decide

/-! ### The header of the stat command -/

theorem stat_cb_no_header (obji objerr : Int) (res : ipc_tval → ipc_get_res) (cba : cbarg)
    (b : Bool) : stat_event.header b ∉ (stat_cb obji objerr res cba).out := by
  unfold stat_cb
  simp only
  split_ifs with h1 h2 h3
  · simp
  · cases tstate_char (to_tstate (res .IPC_TVAL_STATE).num) <;> simp
  · cases tstate_char (to_tstate (res .IPC_TVAL_STATE).num) <;> simp
  · simp

theorem run_callbacks_no_header (cba : cbarg) (fired : List callback) (b : Bool) :
    stat_event.header b ∉ (run_callbacks cba fired).out := by
  induction fired generalizing cba with
  | nil => simp [run_callbacks]
  | cons cb rest ih =>
    simp only [run_callbacks]
    split_ifs with hexit
    · exact stat_cb_no_header _ _ _ _ b
    · simp only [List.mem_append, not_or]
      exact ⟨stat_cb_no_header _ _ _ _ b, ih _⟩

/-- A cycle prints the header exactly when the counter reaches zero, and then
the header is the first thing the cycle writes. -/
theorem stat_cycle_header (s : stat_state) (fired : List callback) (err : Int) :
    (prints_header (stat_cycle s fired err) ↔ s.header - 1 = 0) ∧
    (s.header - 1 = 0 →
      (stat_cycle s fired err).out.head? = some (stat_event.header (decide (s.individual ≠ 0)))) ∧
    (stat_cycle s fired err).state.individual = s.individual ∧
    (stat_cycle s fired err).state.header
      = (if s.header - 1 = 0 then (if s.individual ≠ 0 then 1 else 20) else s.header - 1) := by
  have hno := run_callbacks_no_header
    { s.cba with tot := { btstat_zero with state := IPC_TSTATE_INACTIVE } } fired
  unfold prints_header stat_cycle
  simp only
  by_cases hh : s.header - 1 = 0
  · simp only [hh, if_true]
    refine ⟨?_, ?_, ?_, ?_⟩
    · refine ⟨fun _ => trivial, fun _ => ⟨decide (s.individual ≠ 0), ?_⟩⟩
      split_ifs <;> simp
    · intro _
      split_ifs <;> simp
    · split_ifs <;> rfl
    · split_ifs <;> rfl
  · simp only [hh, if_false]
    refine ⟨?_, ?_, ?_, ?_⟩
    · constructor
      · rintro ⟨b, hb⟩
        exfalso
        split_ifs at hb
        · simp only [List.nil_append] at hb
          exact hno b hb
        · simp only [List.nil_append, List.mem_append, List.mem_singleton] at hb
          rcases hb with hb | hb
          · exact hno b hb
          · cases hb
        · simp only [List.nil_append, List.mem_append, List.mem_singleton] at hb
          rcases hb with (hb | hb) | hb
          · exact hno b hb
          · simp at hb
          · cases hb
        · simp only [List.nil_append, List.mem_append, List.mem_singleton] at hb
          rcases hb with (hb | hb) | hb
          · exact hno b hb
          · simp at hb
          · cases hb
      · intro h; exact absurd h (by simp)
    · intro h; exact absurd h (by simp)
    · split_ifs <;> rfl
    · split_ifs <;> rfl

/-- The header counter at the start of the cycle number `k` (from 0). -/
theorem do_stat_cycles_header (seconds : Int) (answers : Nat → List callback × Int) :
    ∀ (fuel k : Nat) (s : stat_state),
      ((s.individual ≠ 0 ∧ s.header = 1) ∨
        (s.individual = 0 ∧ s.header = 20 - (((k + 19) % 20 : Nat) : Int))) →
      ∀ (j : Nat) (r : cycle_result),
        (do_stat_cycles seconds answers fuel k s)[j]? = some r →
        (prints_header r ↔ (s.individual ≠ 0 ∨ (k + j) % 20 = 0)) ∧
        (prints_header r → ∃ b, r.out.head? = some (stat_event.header b)) := by
  intro fuel
  induction fuel with
  | zero =>
    intro k s _ j r hr
    simp [do_stat_cycles] at hr
  | succ fuel ih =>
    intro k s hinv j r hr
    obtain ⟨hpr, hhead, hind, hhdr⟩ := stat_cycle_header s (answers k).1 (answers k).2
    have hfirst : (prints_header (stat_cycle s (answers k).1 (answers k).2) ↔
          (s.individual ≠ 0 ∨ (k + 0) % 20 = 0)) ∧
        (prints_header (stat_cycle s (answers k).1 (answers k).2) →
          ∃ b, (stat_cycle s (answers k).1 (answers k).2).out.head?
            = some (stat_event.header b)) := by
      refine ⟨?_, fun h => ⟨_, hhead (hpr.mp h)⟩⟩
      rw [hpr]
      rcases hinv with ⟨h1, h2⟩ | ⟨h1, h2⟩
      · constructor
        · intro _; exact Or.inl h1
        · intro _; omega
      · constructor
        · intro h; right; omega
        · intro h
          rcases h with h | h
          · exact absurd h1 h
          · omega
    have hnext : ((stat_cycle s (answers k).1 (answers k).2).state.individual ≠ 0 ∧
          (stat_cycle s (answers k).1 (answers k).2).state.header = 1) ∨
        ((stat_cycle s (answers k).1 (answers k).2).state.individual = 0 ∧
          (stat_cycle s (answers k).1 (answers k).2).state.header
            = 20 - ((((k + 1) + 19) % 20 : Nat) : Int)) := by
      rw [hind, hhdr]
      rcases hinv with ⟨h1, h2⟩ | ⟨h1, h2⟩
      · left
        refine ⟨h1, ?_⟩
        simp [h1, h2]
      · right
        refine ⟨h1, ?_⟩
        simp only [h1, ne_eq, not_true_eq_false, if_false]
        split_ifs with h0
        · omega
        · omega
    simp only [do_stat_cycles] at hr
    split_ifs at hr with hexit hsec
    · cases j with
      | zero =>
        simp only [List.getElem?_cons_zero, Option.some.injEq] at hr
        subst hr
        exact hfirst
      | succ j => simp at hr
    · cases j with
      | zero =>
        simp only [List.getElem?_cons_zero, Option.some.injEq] at hr
        subst hr
        exact hfirst
      | succ j =>
        simp only [List.getElem?_cons_succ] at hr
        have := ih (k + 1) _ hnext j r hr
        rw [hind] at this
        have hidx : k + 1 + j = k + (j + 1) := by omega
        rw [hidx] at this
        exact this
    · cases j with
      | zero =>
        simp only [List.getElem?_cons_zero, Option.some.injEq] at hr
        subst hr
        exact hfirst
      | succ j => simp at hr

/-- With a positive interval the loop has no end of its own: as long as no
cycle leaves the process, every unit of fuel is one more cycle. -/
theorem do_stat_cycles_length (seconds : Int) (hsec : 0 < seconds)
    (answers : Nat → List callback × Int) :
    ∀ (fuel k : Nat) (s : stat_state),
      (∀ r ∈ do_stat_cycles seconds answers fuel k s, r.exit = false) →
      (do_stat_cycles seconds answers fuel k s).length = fuel := by
  intro fuel
  induction fuel with
  | zero => intro k s _; simp [do_stat_cycles]
  | succ fuel ih =>
    intro k s hall
    have h0 : (stat_cycle s (answers k).1 (answers k).2).exit = false := by
      apply hall
      simp only [do_stat_cycles]
      split_ifs <;> simp
    simp only [do_stat_cycles, h0, Bool.false_eq_true, if_false, hsec, if_true,
      List.length_cons] at hall ⊢
    rw [ih (k + 1) _ (fun r hr => hall r (List.mem_cons_of_mem _ hr))]

theorem do_stat_cycles_once (seconds : Int) (hsec : seconds ≤ 0)
    (answers : Nat → List callback × Int) (fuel k : Nat) (s : stat_state) :
    do_stat_cycles seconds answers (fuel + 1) k s
      = [stat_cycle s (answers k).1 (answers k).2] := by
  have : ¬ (seconds > 0) := by omega
  simp only [do_stat_cycles, this, if_false]
  split_ifs <;> rfl

/-! ### C14 -/

/-- C14: numbering the poll cycles of `do_stat` from 1, the header line is
printed in cycle n, and then as the first thing of the cycle, if and only if
individual mode is on (also when `names` implies it) or (n - 1) mod 20 = 0:
in every cycle in individual mode, and in exactly the cycles 1, 21, 41, ... in
aggregate mode. With a positive interval the loop runs on as long as no cycle
leaves the process; with the interval 0 exactly one cycle runs, and it prints
the header. -/
theorem C14_do_stat_header (individual names seconds : Int) (tot : btstat)
    (answers : Nat → List callback × Int) (fuel : Nat) :
    (∀ (n : Nat) (r : cycle_result), 1 ≤ n →
      (do_stat individual names seconds tot answers fuel)[n - 1]? = some r →
      (prints_header r ↔ (individual ≠ 0 ∨ names ≠ 0 ∨ (n - 1) % 20 = 0)) ∧
      (prints_header r → ∃ b, r.out.head? = some (stat_event.header b))) ∧
    (0 < seconds →
      (∀ r ∈ do_stat individual names seconds tot answers fuel, r.exit = false) →
      (do_stat individual names seconds tot answers fuel).length = fuel) ∧
    (seconds = 0 →
      ∃ r, do_stat individual names seconds tot answers (fuel + 1) = [r] ∧ prints_header r) := by
  have hinv : (((do_stat_init individual names tot).individual ≠ 0 ∧
        (do_stat_init individual names tot).header = 1) ∨
      ((do_stat_init individual names tot).individual = 0 ∧
        (do_stat_init individual names tot).header = 20 - (((0 + 19) % 20 : Nat) : Int))) := by
    by_cases h : (do_stat_init individual names tot).individual = 0
    · right; exact ⟨h, by simp [do_stat_init]⟩
    · left; exact ⟨h, by simp [do_stat_init]⟩
  have hmode : (do_stat_init individual names tot).individual ≠ 0 ↔
      (individual ≠ 0 ∨ names ≠ 0) := by
    simp only [do_stat_init]
    by_cases hn : names = 0
    · simp [hn]
    · simp [hn]
  refine ⟨?_, ?_, ?_⟩
  · intro n r hn hr
    have := do_stat_cycles_header seconds answers fuel 0 _ hinv (n - 1) r hr
    rw [hmode, Nat.zero_add] at this
    refine ⟨?_, this.2⟩
    rw [this.1]
    constructor
    · rintro ((h | h) | h)
      · exact Or.inl h
      · exact Or.inr (Or.inl h)
      · exact Or.inr (Or.inr h)
    · rintro (h | h | h)
      · exact Or.inl (Or.inl h)
      · exact Or.inl (Or.inr h)
      · exact Or.inr h
  · intro hsec hall
    exact do_stat_cycles_length seconds hsec answers fuel 0 _ hall
  · intro hsec
    refine ⟨_, do_stat_cycles_once seconds (by omega) answers fuel 0 _, ?_⟩
    rw [(stat_cycle_header _ _ _).1]
    simp [do_stat_init]

/-- C14 on 21 cycles in aggregate mode with an interval of one second and a
daemon without torrents: all 21 cycles run, the cycle 21 prints the header, the
cycle 20 does not. -/
theorem C14_do_stat_header_witness :
    (do_stat 0 0 1 btstat_zero (fun _ => ([], IPC_OK)) 21).length = 21 ∧
    (∃ r, (do_stat 0 0 1 btstat_zero (fun _ => ([], IPC_OK)) 21)[21 - 1]? = some r ∧
      prints_header r) ∧
    (∃ r, (do_stat 0 0 1 btstat_zero (fun _ => ([], IPC_OK)) 21)[20 - 1]? = some r ∧
      ¬ prints_header r) := by
  have h := C14_do_stat_header 0 0 1 btstat_zero (fun _ => ([], IPC_OK)) 21
  refine ⟨h.2.1 (by decide) (by decide), ?_, ?_⟩
  · have hs : ((do_stat 0 0 1 btstat_zero (fun _ => ([], IPC_OK)) 21)[21 - 1]?).isSome
        = true := by decide
    obtain ⟨r, hr⟩ := Option.isSome_iff_exists.mp hs
    exact ⟨r, hr, (h.1 21 r (by decide) hr).1.mpr (Or.inr (Or.inr (by decide)))⟩
  · have hs : ((do_stat 0 0 1 btstat_zero (fun _ => ([], IPC_OK)) 21)[20 - 1]?).isSome
        = true := by decide
    obtain ⟨r, hr⟩ := Option.isSome_iff_exists.mp hs
    refine ⟨r, hr, fun hp => ?_⟩
    have := (h.1 20 r (by decide) hr).1.mp hp
    revert this
    decide

end Btcli
